import Mathlib

/-!
Verification of the `git_ext` command-line tool (src/src/main.rs).

The development shallowly embeds the Rust source into Lean:
* strings are modelled as `List Char` where character-level processing
  matters (the regex-based parsing), wrapped back into `String` at the
  data-model boundary;
* the subprocess gateway (`run_git`) and every operation built on it are
  modelled in a state monad `GitM` threading the list of issued git
  command lines (the trace) and the console output, over an environment
  that answers each invocation;
* the unguarded recursions of the source (`branch_depth`,
  `rec_fix_up`, `format_tree_rooted_at`) receive an explicit fuel
  parameter, since the Rust originals may fail to terminate on cyclic
  graphs; theorems carry a sufficient-fuel hypothesis where needed.
-/

/-! ## Character-list utilities

These model the string operations the Rust code uses: `str::trim`,
`trim_start_matches('*')`, the regex `\s+` split with limit 3, the
regex `(?:\[([^\]]*)\] )?(.*)`, `str::split(": ")`, `str::contains`,
and the status regex `(?:ahead (\d+))?(?:, )?(?:behind (\d+))?`.
-/

/-- Whitespace as matched by the `\s` character class on the inputs the
tool handles (ASCII whitespace). -/
def isWs (c : Char) : Bool :=
  c = ' ' || c = '\t' || c = '\n' || c = '\r' || c = '\x0b' || c = '\x0c'

/-- Left trim. -/
def trimL (s : List Char) : List Char := s.dropWhile isWs

/-- Right trim. -/
def trimR (s : List Char) : List Char := (trimL s.reverse).reverse

/-- `str::trim`. -/
def trimChars (s : List Char) : List Char := trimR (trimL s)

/-- `str::trim` at the `String` level. -/
def strTrim (s : String) : String := String.mk (trimChars s.data)

/-- `pat` occurs as a contiguous substring, as in Rust `str::contains`. -/
def containsSub (pat : List Char) : List Char → Bool
  | [] => pat.isEmpty
  | c :: t => pat.isPrefixOf (c :: t) || containsSub pat t

/-- `str::contains` at the `String` level. -/
def strContains (s pat : String) : Bool := containsSub pat.data s.data

/-- First whitespace-delimited field and the remainder after the maximal
whitespace run that follows it; `none` rest marker is encoded by the
caller checking emptiness. -/
def breakWs (s : List Char) : List Char × List Char :=
  (s.takeWhile (fun c => !isWs c), s.dropWhile (fun c => !isWs c))

/-- `Regex::new(r"\s+").splitn(s, 3)`: split at the first two maximal
whitespace runs; the third part is the unsplit remainder. -/
def splitn3 (s : List Char) : List (List Char) :=
  let p1 := breakWs s
  if p1.2 = [] then [p1.1]
  else
    let r1 := p1.2.dropWhile isWs
    let p2 := breakWs r1
    if p2.2 = [] then [p1.1, p2.1]
    else [p1.1, p2.1, p2.2.dropWhile isWs]

/-- Helper for `tokenCount`: the flag records whether the previous
character belonged to a token. -/
def tokenCountAux : Bool → List Char → Nat
  | _, [] => 0
  | inTok, c :: t =>
    if isWs c then tokenCountAux false t
    else (if inTok then 0 else 1) + tokenCountAux true t

/-- Number of maximal nonempty runs of non-whitespace characters: the
number of whitespace-separated tokens of a line.  This formalizes the
phrase "whitespace-separated tokens" of the specification; it is not a
function of the source. -/
def tokenCount (s : List Char) : Nat := tokenCountAux false s

/-- `str::split(": ")`: split on every occurrence of the two-character
separator, left to right. -/
def splitColonSpace : List Char → List (List Char)
  | [] => [[]]
  | [c] => [[c]]
  | c :: c2 :: t =>
    if c = ':' ∧ c2 = ' ' then [] :: splitColonSpace t
    else
      match splitColonSpace (c2 :: t) with
      | [] => [[c]]
      | h :: r => (c :: h) :: r

/-- Whether the two-character separator `": "` occurs in `s`. -/
def hasColonSpace : List Char → Bool
  | [] => false
  | [_] => false
  | c :: c2 :: t => (c = ':' && c2 = ' ') || hasColonSpace (c2 :: t)

/-! ## Status parsing

Rust source, `Status::parse`: the regex
`(?:ahead (\d+))?(?:, )?(?:behind (\d+))?` can match the empty string,
so the leftmost match is always found at position 0 and `captures`
always returns `Some`; a capture group participates only if its piece
matches at the current position.  `\d+` is a maximal nonempty digit
run, and the captured text is converted with `str::parse::<i32>`,
whose overflow failure is turned into `None` by `.ok()`.
-/

/-- `ahead: Option<i32>, behind: Option<i32>` of the Rust `Status`. -/
structure Status where
  ahead : Option Int
  behind : Option Int
deriving DecidableEq, Repr

/-- `str::parse::<i32>` on a nonempty digit string (value, or `None` on
i32 overflow). -/
def parseI32 (ds : List Char) : Option Int :=
  let v := ds.foldl (fun acc c => acc * 10 + (c.toNat - 48)) 0
  if v ≤ 2147483647 then some (Int.ofNat v) else none

/-- Try `ahead (\d+)` (respectively `behind (\d+)`) at the current
position: the literal word, a space, then a maximal nonempty digit run.
Returns the digits and the rest on success. -/
def matchWordNum (word : List Char) (s : List Char) :
    Option (List Char × List Char) :=
  if word.isPrefixOf s then
    let r := s.drop word.length
    let ds := r.takeWhile Char.isDigit
    if ds = [] then none else some (ds, r.drop ds.length)
  else none

/-- The whole status regex applied at position 0 (where the leftmost,
possibly empty, match always starts). -/
def status_parse_groups (s : List Char) : Status :=
  let stepA := matchWordNum ['a', 'h', 'e', 'a', 'd', ' '] s
  let aheadDs := stepA.map (fun p => p.1)
  let s1 := (stepA.map (fun p => p.2)).getD s
  let s2 := if [',', ' '].isPrefixOf s1 then s1.drop 2 else s1
  let stepB := matchWordNum ['b', 'e', 'h', 'i', 'n', 'd', ' '] s2
  let behindDs := stepB.map (fun p => p.1)
  { ahead := aheadDs.bind parseI32, behind := behindDs.bind parseI32 }

/-- `Status::parse`.  `captures` always succeeds because the regex
matches the empty string, hence the result is always `some`. -/
def status_parse (s : List Char) : Option Status :=
  some (status_parse_groups s)

/-! ## Branch entry parsing -/

/-- The Rust `BranchDescriptor`. -/
structure BranchDescriptor where
  current : Bool
  name : String
  sha : String
  upstream : Option String
  message : String
  status : Option Status
deriving DecidableEq, Repr

/-- `parse_error`: the error message constructed for a failed line. -/
def parse_error (branch_entry : String) (reason : String) : String :=
  "Unexpectedly unable to parse branch line " ++ branch_entry ++
    " (" ++ reason ++ ")"

/-- The regex `(?:\[([^\]]*)\] )?(.*)` matched at position 0 against
`rest`: optionally a bracketed annotation (content up to the first `]`,
which must be followed by a space), then the free message text.  The
optional group fails, and is skipped, whenever `rest` does not start
with `[` or the first `]` is not followed by a space. -/
def rest_captures (s : List Char) : Option (List Char) × List Char :=
  match s with
  | c :: t =>
    if c = '[' then
      match t.dropWhile (fun x => x ≠ ']') with
      | r1 :: r2 :: m =>
        if r1 = ']' ∧ r2 = ' ' then
          (some (t.takeWhile (fun x => x ≠ ']')), m)
        else (none, s)
      | _ => (none, s)
    else (none, s)
  | [] => (none, s)

/-- `parse_branch_entry` from the Rust source: trim, strip leading `*`
characters, trim, split into at most three whitespace fields, then
match the optional bracketed annotation and split its content on
`": "`; the `current` flag reads the first character of the original
(untrimmed) line. -/
def parse_branch_entry (branch_entry : String) :
    Except String BranchDescriptor :=
  let parts :=
    splitn3 (trimChars ((trimChars branch_entry.data).dropWhile
      (fun c => c = '*')))
  match parts with
  | [p0, p1, p2] =>
    let caps := rest_captures p2
    let upstream_and_maybe_status : Option (List (List Char)) :=
      caps.1.map splitColonSpace
    let upstream : Option String :=
      upstream_and_maybe_status.map (fun v => String.mk (v.headD []))
    let status : Option Status :=
      (upstream_and_maybe_status.bind (fun v => v.get? 1)).bind
        status_parse
    Except.ok
      { current := branch_entry.data.headD ' ' = '*'
        name := String.mk p0
        sha := String.mk p1
        upstream := upstream
        message := String.mk caps.2
        status := status }
  | _ => Except.error (parse_error branch_entry "wrong number of parts")

/-! ## The version-control gateway

`run_git` spawns `git` with an argument list and inspects the captured
output.  The subprocess world is modelled by an environment `Env`: its
`exec` field answers each invocation, and may consult the trace of
commands issued so far (the repository is stateful: a `checkout`
changes what `rev-parse HEAD` later reports).  `confirm` answers the
interactive `dialoguer::Confirm` prompt used by `purge`.  The monad
threads the trace and the console output; errors are the `anyhow`
message strings of the source (terminal colors are dropped).
-/

/-- Captured output of one subprocess run: `status.code()` (none when
killed by a signal), stdout and stderr, both assumed valid UTF-8. -/
structure ProcOut where
  code : Option Int
  stdout : String
  stderr : String

/-- The external world: subprocess answers (a function of the commands
issued so far and the current argument list) and the interactive
confirmation answer. -/
structure Env where
  exec : List (List String) → List String → ProcOut
  confirm : Bool

/-- Mutable state threaded through a command: the trace of issued git
command lines and the console output. -/
structure St where
  trace : List (List String)
  console : List String
deriving DecidableEq

/-- The effect monad of the tool. -/
def GitM (α : Type) : Type := Env → St → Except String α × St

instance : Monad GitM where
  pure a := fun _ st => (Except.ok a, st)
  bind x f := fun env st =>
    match x env st with
    | (Except.ok a, st1) => f a env st1
    | (Except.error e, st1) => (Except.error e, st1)

/-- Fail with an `anyhow::Error` message. -/
def GitM.fail {α : Type} (msg : String) : GitM α :=
  fun _ st => (Except.error msg, st)

/-- `println!` to the console. -/
def GitM.println (line : String) : GitM Unit :=
  fun _ st => (Except.ok (), { st with console := st.console ++ [line] })

/-- `Confirm::new().with_prompt("Ok?").interact()?`. -/
def GitM.interact : GitM Bool :=
  fun env st => (Except.ok env.confirm, st)

/-- Pure core of `run_git` on one captured output: `status.success()`
means exit code 0; on success the trimmed stdout is returned, otherwise
the error message carries the exit code (`-1` when absent). -/
def run_git_result (out : ProcOut) : Except String String :=
  if out.code = some 0 then Except.ok (strTrim out.stdout)
  else
    Except.error ("git exited with status " ++ toString (out.code.getD (-1)))

/-- Console lines `run_git` prints: the echoed command line when
verbose, then either stderr (failure) or the trimmed stdout (verbose
success). -/
def run_git_console (cmdargs : List String) (verbose : Bool)
    (out : ProcOut) : List String :=
  (if verbose then ["git " ++ String.intercalate " " cmdargs] else []) ++
    (if out.code = some 0 then
      (if verbose then [strTrim out.stdout] else [])
    else [out.stderr])

/-- `run_git`: invoke the external tool, record the command in the
trace, emit console output, and return the trimmed stdout or fail. -/
def run_git (cmdargs : List String) (verbose : Bool) : GitM String :=
  fun env st =>
    let out := env.exec st.trace cmdargs
    (run_git_result out,
      { trace := st.trace ++ [cmdargs],
        console := st.console ++ run_git_console cmdargs verbose out })

/-- `lasthash`. -/
def lasthash (verbose : Bool) : GitM String :=
  run_git ["log", "-n", "1", "--pretty=format:%H"] verbose

/-- The two clean-tree messages `ensure_clean` accepts. -/
def isCleanStatus (status : String) : Bool :=
  strContains status "nothing to commit, working directory clean" ||
    strContains status "nothing to commit, working tree clean"

/-- `ensure_clean`: fail with the status text when the tree is dirty. -/
def ensure_clean : GitM Unit := do
  let status ← run_git ["status"] false
  if isCleanStatus status then pure () else GitM.fail status

/-- `handle_submodules`. -/
def handle_submodules (verbose : Bool) : GitM Unit := do
  let _ ← run_git ["submodule", "init"] verbose
  let _ ← run_git ["submodule", "update", "--recursive"] verbose
  pure ()

/-- `get_upstream`. -/
def get_upstream (verbose : Bool) : GitM String :=
  run_git ["rev-parse", "--abbrev-ref", "--symbolic-full-name", "@{u}"]
    verbose

/-- `get_curr_branch`. -/
def get_curr_branch (verbose : Bool) : GitM String :=
  run_git ["rev-parse", "--abbrev-ref", "HEAD"] verbose

/-- `fix_upstream`: the single-branch reconcile. -/
def fix_upstream (upstream : String) (verbose : Bool) : GitM Unit := do
  let commit ← lasthash verbose
  let _ ← run_git ["branch", "--set-upstream-to", upstream] true
  ensure_clean
  let _ ← run_git ["reset", "--hard", upstream, "--"] true
  handle_submodules true
  let _ ← run_git ["cherry-pick", commit] true
  handle_submodules true

/-- `checkout`. -/
def checkout (branch : String) (verbose : Bool) : GitM Unit := do
  let _ ← run_git ["checkout", branch] verbose
  handle_submodules verbose

/-- `push_origin`. -/
def push_origin (verbose : Bool) : GitM Unit := do
  let branch ← get_curr_branch verbose
  let _ ← run_git ["push", "-f", "origin", branch] true
  pure ()

/-- The `for branch in branch_cache` replay loop of `rec_fix_up`:
front to back, each branch is checked out, its live upstream re-read,
reconciled, and optionally force-pushed. -/
def replay_cache (push verbose : Bool) : List String → GitM Unit
  | [] => pure ()
  | b :: rest => do
    checkout b true
    let up ← get_upstream false
    fix_upstream up verbose
    if push then push_origin false else pure ()
    replay_cache push verbose rest

/-- `rec_fix_up`: climb from the current branch to `terminal`,
prepending each branch left behind to the work list, then replay the
list front to back.  The Rust recursion has no termination guard; the
embedding adds fuel, and exhausting it is a failure the source would
instead express by diverging. -/
def rec_fix_up (fuel : Nat) (terminal : String) (push verbose : Bool)
    (branch_cache : List String) : GitM Unit :=
  match fuel with
  | 0 => GitM.fail "fuel exhausted"
  | fuel + 1 => do
    let curr_branch ← get_curr_branch verbose
    if curr_branch = terminal then replay_cache push verbose branch_cache
    else do
      let curr_upstream ← get_upstream verbose
      checkout curr_upstream false
      rec_fix_up fuel terminal push verbose (curr_branch :: branch_cache)

/-- `delete_branch`. -/
def delete_branch (branch : String) (verbose : Bool) : GitM Unit := do
  let _ ← run_git ["branch", "-D", branch] verbose
  pure ()

/-! ## Purge -/

/-- `[\w-]` of the purge regex: word characters or hyphen. -/
def isWordDash (c : Char) : Bool :=
  c.isAlphanum || c = '_' || c = '-'

/-- The literal part of the regex `origin/{pfx}/([\w-]+)`. -/
def purgeLit (pfx : String) : List Char :=
  ("origin/" ++ pfx ++ "/").data

/-- Leftmost match of `origin/{pfx}/([\w-]+)` in a line: at each
position, the literal followed by at least one word-or-hyphen
character; the capture is the maximal such run.  A position where the
literal matches but no word character follows is skipped, as the regex
engine resumes the search at the next position. -/
def purge_capture (lit : List Char) : List Char → Option (List Char)
  | [] => none
  | c :: rest =>
    let cap := ((c :: rest).drop lit.length).takeWhile isWordDash
    if lit.isPrefixOf (c :: rest) ∧ cap ≠ [] then some cap
    else purge_capture lit rest

/-- Split on newline characters. -/
def splitNL : List Char → List (List Char)
  | [] => [[]]
  | c :: t =>
    if c = '\n' then [] :: splitNL t
    else
      match splitNL t with
      | [] => [[c]]
      | h :: r => (c :: h) :: r

/-- `str::lines` restricted to the trimmed output the gateway returns:
split on newline characters. -/
def linesOf (s : String) : List (List Char) :=
  splitNL s.data

/-- The branch-name extraction of `purge`: each line of the dry-run
prune listing is trimmed, matched against the regex, and a match
`origin/{pfx}/<m>` proposes the local branch `{pfx}/<m>`. -/
def purge_branches (pfx : String) (pruneOut : String) : List String :=
  (((linesOf pruneOut).map trimChars).filterMap
      (purge_capture (purgeLit pfx))).map
    (fun cap => pfx ++ "/" ++ String.mk cap)

/-- The deletion batch of `purge`: a per-branch failure is downgraded
to a console warning and the batch continues. -/
def purge_delete_loop : List String → GitM Unit
  | [] => pure ()
  | b :: rest => fun env st =>
    match delete_branch b true env st with
    | (Except.ok _, st1) => purge_delete_loop rest env st1
    | (Except.error e, st1) =>
      purge_delete_loop rest env
        { st1 with
          console := st1.console ++
            ["Warning: ignoring error deleting branch " ++ b ++ ": " ++ e] }

/-- `purge`: list stale remote branches with the given name root from a
dry-run prune, propose the matching local branches, and delete them
after confirmation (or with the bypass flag), tolerating per-branch
deletion failures; finish with a real prune. -/
def purge (pfx : String) (no_confirm verbose : Bool) : GitM Unit := do
  let pruneOut ← run_git ["remote", "prune", "origin", "-n"] verbose
  let branches := purge_branches pfx pruneOut
  if branches = [] then GitM.println "No branches to purge."
  else do
    GitM.println "I'm going to purge the following branches:"
    branches.forM GitM.println
    if no_confirm then do
      purge_delete_loop branches
      let _ ← run_git ["remote", "prune", "origin"] verbose
      pure ()
    else do
      let ok ← GitM.interact
      if ok then do
        purge_delete_loop branches
        let _ ← run_git ["remote", "prune", "origin"] verbose
        pure ()
      else GitM.println "Cancelling."

/-! ## Branch graph and tree rendering -/

/-- The Rust `BranchT`: a descriptor plus downstream branch names. -/
structure BranchT where
  desc : BranchDescriptor
  downstream : List String
deriving DecidableEq, Repr

/-- `BranchT::has_upstream`. -/
def BranchT.has_upstream (b : BranchT) : Bool :=
  b.desc.upstream.isSome

/-- Association-list stand-in for the `HashMap`s of the source; only
`get`, `contains_key` and `insert` are used, never iteration, so the
entry order is irrelevant. -/
def alookup {β : Type} : List (String × β) → String → Option β
  | [], _ => none
  | (k, v) :: rest, n => if k = n then some v else alookup rest n

/-- `HashMap::contains_key`. -/
def containsKey {β : Type} (m : List (String × β)) (n : String) : Bool :=
  (alookup m n).isSome

/-- `HashMap::insert` (overwrite semantics). -/
def insertAL {β : Type} : List (String × β) → String → β → List (String × β)
  | [], k, v => [(k, v)]
  | (k1, v1) :: rest, k, v =>
    if k1 = k then (k, v) :: rest else (k1, v1) :: insertAL rest k v

/-- One step of building `branch_downstream_map`: ensure the key exists
and push the child name (`insert` of an empty vector followed by
`get_mut(..).push(..)` in the source). -/
def addDownstream : List (String × List String) → String → String →
    List (String × List String)
  | [], up, child => [(up, [child])]
  | (k, v) :: rest, up, child =>
    if k = up then (k, v ++ [child]) :: rest
    else (k, v) :: addDownstream rest up child

/-- `branch_depth`, with fuel standing in for the unguarded Rust
recursion: 0 when the name is not a key of the map or the node has no
upstream, otherwise one more than the depth of the upstream name. -/
def branch_depth (fuel : Nat) (branches_by_name : List (String × BranchT))
    (branch_name : String) : Int :=
  match fuel with
  | 0 => 0
  | fuel + 1 =>
    match alookup branches_by_name branch_name with
    | some br =>
      match br.desc.upstream with
      | some up => 1 + branch_depth fuel branches_by_name up
      | none => 0
    | none => 0

/-- `INDENT_AMOUNT`. -/
def INDENT_AMOUNT : Int := 2

/-- `prefix_for_depth`. -/
def prefix_for_depth (depth : Int) : String :=
  if depth ≤ 0 then ""
  else String.mk (List.replicate (INDENT_AMOUNT * depth).toNat ' ') ++ "+-- "

/-- Foreground colors used by the renderer. -/
inductive CellColor where
  | darkBlue
  | red
  | darkGreen
deriving DecidableEq, Repr

/-- A `comfy_table::Cell`: text plus optional foreground color. -/
structure Cell where
  text : String
  fg : Option CellColor
deriving DecidableEq, Repr

/-- `Cell::new`. -/
def Cell.new (text : String) : Cell := { text := text, fg := none }

/-- `Cell::fg`. -/
def Cell.withFg (c : Cell) (color : CellColor) : Cell :=
  { c with fg := some color }

/-- The `+N` / `-N` divergence cells. -/
def statusCell (pre : String) (v : Option Int) (color : CellColor) : Cell :=
  (Cell.new ((v.map (fun n => pre ++ toString n)).getD "")).withFg color

/-- The phantom row block of `format_tree_rooted_at`: one synthetic
row when the upstream is remote-style (contains `origin`) or absent
from the map, nothing otherwise. -/
def phantom_rows (branches_by_name : List (String × BranchT))
    (upstreamPfx : String) (root : BranchT) : List (List Cell) :=
  match root.desc.upstream with
  | some up =>
    if strContains up "origin" then
      [[(Cell.new (upstreamPfx ++ up)).withFg CellColor.darkBlue,
        Cell.new "", Cell.new "", Cell.new "", Cell.new ""]]
    else if !containsKey branches_by_name up then
      [[(Cell.new (upstreamPfx ++ up ++ " [missing]")).withFg
          CellColor.red,
        Cell.new "", Cell.new "", Cell.new "", Cell.new ""]]
    else []
  | none => []

/-- The row of the node itself. -/
def node_row (pfx : String) (root : BranchT) : List Cell :=
  [Cell.new (pfx ++ root.desc.name),
   Cell.new root.desc.sha,
   statusCell "+" (root.desc.status.bind (fun s => s.ahead))
     CellColor.darkGreen,
   statusCell "-" (root.desc.status.bind (fun s => s.behind))
     CellColor.red,
   if root.desc.current then
     (Cell.new root.desc.message).withFg CellColor.darkGreen
   else Cell.new root.desc.message]

/-- `format_tree_rooted_at`: the phantom row for a dangling or
remote-style upstream, the node row, then the rows of each downstream
branch found in the map, in stored order.  Fuel bounds the unguarded
recursion of the source. -/
def format_tree_rooted_at (fuel : Nat)
    (branches_by_name : List (String × BranchT)) (root : BranchT) :
    List (List Cell) :=
  match fuel with
  | 0 => []
  | fuel + 1 =>
    let depth := branch_depth (fuel + 1) branches_by_name root.desc.name
    (phantom_rows branches_by_name (prefix_for_depth (depth - 1)) root ++
        [node_row (prefix_for_depth depth ++
          (if root.desc.current then "* " else "")) root]) ++
      (root.downstream.filterMap (alookup branches_by_name)).flatMap
        (format_tree_rooted_at fuel branches_by_name)

/-! ## Graph construction (`print_branch_tree`, first half)

The source builds, from the parsed descriptors: the list of `BranchT`
with empty downstream lists, the map from upstream name to downstream
names, the downstream-augmented branches, the by-name map, and the
name-sorted roots.
-/

/-- Pass 1: one `BranchT` per descriptor, empty downstream. -/
def mkBranches (descs : List BranchDescriptor) : List BranchT :=
  descs.map (fun d => { desc := d, downstream := [] })

/-- Pass 2: the `branch_downstream_map` fold. -/
def branch_downstream_map (branches : List BranchT) :
    List (String × List String) :=
  branches.foldl
    (fun m b =>
      match b.desc.upstream with
      | some up => addDownstream m up b.desc.name
      | none => m)
    []

/-- Pass 3: copy each branch name's accumulated downstream list into
the branch. -/
def set_downstreams (branches : List BranchT)
    (m : List (String × List String)) : List BranchT :=
  branches.map (fun b =>
    match alookup m b.desc.name with
    | some ds => { b with downstream := ds }
    | none => b)

/-- The by-name map (`branches_by_name`). -/
def branches_by_name (branches : List BranchT) :
    List (String × BranchT) :=
  branches.foldl (fun m b => insertAL m b.desc.name b) []

/-- The full descriptor-to-branches pipeline of `print_branch_tree`. -/
def build_branches (descs : List BranchDescriptor) : List BranchT :=
  set_downstreams (mkBranches descs)
    (branch_downstream_map (mkBranches descs))

/-- Root classification: no upstream, or upstream name not a key. -/
def isRootB (byName : List (String × BranchT)) (b : BranchT) : Bool :=
  !b.has_upstream ||
    !containsKey byName (b.desc.upstream.getD "")

/-- The sorted root list (`sort_by_key` on the branch name). -/
def root_branches (descs : List BranchDescriptor) : List BranchT :=
  ((build_branches descs).filter
      (isRootB (branches_by_name (build_branches descs)))).mergeSort
    (fun a b => a.desc.name ≤ b.desc.name)

/-- All rows of the rendered tree: each sorted root in turn. -/
def tree_rows (fuel : Nat) (descs : List BranchDescriptor) :
    List (List Cell) :=
  (root_branches descs).flatMap
    (format_tree_rooted_at fuel (branches_by_name (build_branches descs)))

/-! ## Concrete environments for the reconcile and purge theorems -/

/-- Successful subprocess output. -/
def okOut (s : String) : ProcOut := { code := some 0, stdout := s, stderr := "" }

/-- Failing subprocess output. -/
def errOut (c : Int) (e : String) : ProcOut :=
  { code := some c, stdout := "", stderr := e }

/-- An environment whose answers do not depend on the trace and always
succeed, with stdout given by `f`. -/
def constEnv (f : List String → String) : Env :=
  { exec := fun _ args => okOut (f args), confirm := true }

/-- The currently checked-out branch in the three-branch stack model:
the argument of the last `checkout` command in the trace, initially
`leaf`. -/
def stackHead (trace : List (List String)) : String :=
  (trace.reverse.findSome? (fun args =>
    match args with
    | ["checkout", b] => some b
    | _ => none)).getD "leaf"

/-- The upstream relation of the three-branch stack
`leaf -> mid -> base`. -/
def stackUpstream (b : String) : String :=
  if b = "leaf" then "mid" else if b = "mid" then "base" else "base"

/-- The three-branch repository: `rev-parse HEAD` reports the head
tracked through `checkout` commands, `@{u}` follows the stack, the
working tree is always clean, and every mutating command succeeds. -/
def stackEnv : Env :=
  { exec := fun trace args =>
      let head := stackHead trace
      if args = ["rev-parse", "--abbrev-ref", "HEAD"] then okOut head
      else if args =
          ["rev-parse", "--abbrev-ref", "--symbolic-full-name", "@{u}"] then
        okOut (stackUpstream head)
      else if args = ["log", "-n", "1", "--pretty=format:%H"] then
        okOut ("hash-" ++ head)
      else if args = ["status"] then
        okOut "nothing to commit, working tree clean"
      else okOut ""
    confirm := true }

/-- The nine git invocations `fix_upstream target` issues when the tree
is clean and everything succeeds; `commit` is the recorded tip hash. -/
def fix_upstream_cmds (target commit : String) : List (List String) :=
  [["log", "-n", "1", "--pretty=format:%H"],
   ["branch", "--set-upstream-to", target],
   ["status"],
   ["reset", "--hard", target, "--"],
   ["submodule", "init"],
   ["submodule", "update", "--recursive"],
   ["cherry-pick", commit],
   ["submodule", "init"],
   ["submodule", "update", "--recursive"]]

/-- The prune listing used by the purge theorem. -/
def pruneListing : String :=
  " * [would prune] origin/release/old-1\n" ++
    " * [would prune] origin/release/old-2"

/-- Purge environment, declining the confirmation prompt. -/
def purgeEnvDecline : Env :=
  { exec := fun _ args =>
      if args = ["remote", "prune", "origin", "-n"] then okOut pruneListing
      else okOut ""
    confirm := false }

/-- Purge environment, accepting the prompt, where deleting the first
branch fails and everything else succeeds. -/
def purgeEnvFirstFails : Env :=
  { exec := fun _ args =>
      if args = ["remote", "prune", "origin", "-n"] then okOut pruneListing
      else if args = ["branch", "-D", "release/old-1"] then
        errOut 1 "error: branch not found"
      else okOut ""
    confirm := true }

/-- The empty starting state. -/
def st0 : St := { trace := [], console := [] }

/-! ## Theorems -/

theorem GitM_bind_apply {α β : Type} (x : GitM α) (g : α → GitM β)
    (env : Env) (st : St) :
    (x >>= g) env st =
      match x env st with
      | (Except.ok a, st1) => g a env st1
      | (Except.error e, st1) => (Except.error e, st1) := rfl

theorem GitM_pure_apply {α : Type} (a : α) (env : Env) (st : St) :
    (pure a : GitM α) env st = (Except.ok a, st) := rfl

/-- The trace of the three-branch chain reconcile (see
`rec_fix_up_three_stack`). -/
def stackTrace : List (List String) :=
  [["rev-parse", "--abbrev-ref", "HEAD"],
   ["rev-parse", "--abbrev-ref", "--symbolic-full-name", "@{u}"],
   ["checkout", "mid"],
   ["submodule", "init"],
   ["submodule", "update", "--recursive"],
   ["rev-parse", "--abbrev-ref", "HEAD"],
   ["rev-parse", "--abbrev-ref", "--symbolic-full-name", "@{u}"],
   ["checkout", "base"],
   ["submodule", "init"],
   ["submodule", "update", "--recursive"],
   ["rev-parse", "--abbrev-ref", "HEAD"],
   ["checkout", "mid"],
   ["submodule", "init"],
   ["submodule", "update", "--recursive"],
   ["rev-parse", "--abbrev-ref", "--symbolic-full-name", "@{u}"],
   ["log", "-n", "1", "--pretty=format:%H"],
   ["branch", "--set-upstream-to", "base"],
   ["status"],
   ["reset", "--hard", "base", "--"],
   ["submodule", "init"],
   ["submodule", "update", "--recursive"],
   ["cherry-pick", "hash-mid"],
   ["submodule", "init"],
   ["submodule", "update", "--recursive"],
   ["checkout", "leaf"],
   ["submodule", "init"],
   ["submodule", "update", "--recursive"],
   ["rev-parse", "--abbrev-ref", "--symbolic-full-name", "@{u}"],
   ["log", "-n", "1", "--pretty=format:%H"],
   ["branch", "--set-upstream-to", "mid"],
   ["status"],
   ["reset", "--hard", "mid", "--"],
   ["submodule", "init"],
   ["submodule", "update", "--recursive"],
   ["cherry-pick", "hash-leaf"],
   ["submodule", "init"],
   ["submodule", "update", "--recursive"]]

set_option maxHeartbeats 4000000 in
/-- C1: chain reconcile over the three-branch stack
`leaf -> mid -> base == terminal`.  The climb prepends `leaf`, then
`mid`, to the work list (cache `[mid, leaf]` on reaching `base`), and
the front-to-back replay therefore reconciles `mid` (nearest the
terminal) before the original leaf: in the recorded command trace the
climb checkouts (`mid`, `base`) are followed by the replay checkouts
`mid` (position 11) and only then `leaf` (position 24), each followed
by its branch's full single-branch reconcile command sequence.  The
full trace is pinned, and the checkout subsequence is
`[mid, base, mid, leaf]`. -/
theorem rec_fix_up_three_stack :
    (rec_fix_up 5 "base" false false [] stackEnv st0).1 = Except.ok () ∧
      (rec_fix_up 5 "base" false false [] stackEnv st0).2.trace =
        stackTrace ∧
      stackTrace.filterMap (fun args =>
          match args with
          | ["checkout", b] => some b
          | _ => none) =
        ["mid", "base", "mid", "leaf"] := by
  refine ⟨?_, ?_, ?_⟩
  · simp [rec_fix_up, replay_cache, fix_upstream, checkout, handle_submodules,
      lasthash, ensure_clean, get_curr_branch, get_upstream, push_origin,
      GitM_bind_apply, GitM_pure_apply, GitM.fail,
      run_git, stackEnv, stackHead, stackUpstream, st0, okOut, run_git_result,
      run_git_console, isCleanStatus, strContains, containsSub,
      strTrim, trimChars, trimL, trimR, isWs]
  · simp [rec_fix_up, replay_cache, fix_upstream, checkout, handle_submodules,
      lasthash, ensure_clean, get_curr_branch, get_upstream, push_origin,
      GitM_bind_apply, GitM_pure_apply, GitM.fail,
      run_git, stackEnv, stackHead, stackUpstream, st0, okOut, run_git_result,
      run_git_console, isCleanStatus, strContains, containsSub,
      strTrim, trimChars, trimL, trimR, isWs, stackTrace]
  · simp [stackTrace]

set_option maxHeartbeats 8000000 in
/-- C8: `purge "release"` against the dry-run prune listing proposes
exactly `release/old-1` and `release/old-2`; when the user declines the
prompt nothing is deleted (the only git command issued is the dry-run
prune itself, and the console shows the two proposals and
`Cancelling.`); and when deletion does run and the first deletion
fails, the failure is reported as a warning on the console while the
second branch is still deleted and the final prune still runs. -/
theorem purge_propose_decline_tolerance :
    purge_branches "release" pruneListing =
        ["release/old-1", "release/old-2"] ∧
      (purge "release" false false purgeEnvDecline st0).1 = Except.ok () ∧
      (purge "release" false false purgeEnvDecline st0).2.trace =
        [["remote", "prune", "origin", "-n"]] ∧
      (purge "release" false false purgeEnvDecline st0).2.console =
        ["I'm going to purge the following branches:",
         "release/old-1", "release/old-2", "Cancelling."] ∧
      (purge "release" false false purgeEnvFirstFails st0).1 =
        Except.ok () ∧
      (purge "release" false false purgeEnvFirstFails st0).2.trace =
        [["remote", "prune", "origin", "-n"],
         ["branch", "-D", "release/old-1"],
         ["branch", "-D", "release/old-2"],
         ["remote", "prune", "origin"]] ∧
      ("Warning: ignoring error deleting branch release/old-1: " ++
            "git exited with status 1") ∈
        (purge "release" false false purgeEnvFirstFails st0).2.console := by
  refine ⟨by decide, ?_⟩
  simp [purge, purge_branches, purge_delete_loop, delete_branch,
    GitM.println, GitM.interact, GitM.fail, GitM_bind_apply, GitM_pure_apply,
    linesOf, splitNL, purge_capture, purgeLit, isWordDash, Char.isAlphanum,
    Char.isAlpha, Char.isUpper, Char.isLower, Char.isDigit,
    run_git, run_git_result, run_git_console, okOut, errOut,
    purgeEnvDecline, purgeEnvFirstFails, pruneListing, st0,
    strTrim, trimChars, trimL, trimR, isWs, List.forM]
  decide

/-- `run_git` on an environment that ignores the trace and always
succeeds: returns the trimmed stdout and records the command. -/
theorem run_git_constEnv (f : List String → String) (args : List String)
    (v : Bool) (st : St) :
    run_git args v (constEnv f) st =
      (Except.ok (strTrim (f args)),
       { trace := st.trace ++ [args],
         console := st.console ++ run_git_console args v (okOut (f args)) }) :=
  rfl

/-- C9: the gateway.  With exit code 0, `run_git` returns the standard
output stripped of leading and trailing whitespace (and echoes the
command line and output when verbose).  With a nonzero (or absent)
exit code it prints the standard error text to the console and fails
with an error carrying the exit code; the failure is fatal to the
calling operation: any continuation sequenced after it is never run,
and the trace shows the single invocation with no retry. -/
theorem run_git_gateway (env : Env) (st : St) (args : List String)
    (verbose : Bool) :
    ((env.exec st.trace args).code = some 0 →
      run_git args verbose env st =
        (Except.ok (strTrim (env.exec st.trace args).stdout),
         { trace := st.trace ++ [args],
           console := st.console ++
             (if verbose then
               ["git " ++ String.intercalate " " args,
                strTrim (env.exec st.trace args).stdout]
             else []) })) ∧
    ((env.exec st.trace args).code ≠ some 0 →
      run_git args verbose env st =
        (Except.error ("git exited with status " ++
            toString ((env.exec st.trace args).code.getD (-1))),
         { trace := st.trace ++ [args],
           console := st.console ++
             ((if verbose then ["git " ++ String.intercalate " " args]
               else []) ++ [(env.exec st.trace args).stderr]) })) ∧
    (∀ (β : Type) (k : String → GitM β),
      (env.exec st.trace args).code ≠ some 0 →
      (run_git args verbose >>= k) env st =
        (Except.error ("git exited with status " ++
            toString ((env.exec st.trace args).code.getD (-1))),
         { trace := st.trace ++ [args],
           console := st.console ++
             ((if verbose then ["git " ++ String.intercalate " " args]
               else []) ++ [(env.exec st.trace args).stderr]) })) := by
  refine ⟨fun h => ?_, fun h => ?_, fun β k h => ?_⟩
  · simp [run_git, run_git_result, run_git_console, h]
    cases verbose <;> simp
  · simp [run_git, run_git_result, run_git_console, h]
  · simp [GitM_bind_apply, run_git, run_git_result, run_git_console, h]

/-- A concrete failing environment for the gateway witness. -/
def envFail : Env :=
  { exec := fun _ _ => errOut 3 "boom", confirm := true }

/-- Witness for `run_git_gateway`: concrete success and failure runs. -/
theorem run_git_gateway_witness :
    run_git ["status"] false (constEnv (fun _ => " out ")) st0 =
        (Except.ok "out", { trace := [["status"]], console := [] }) ∧
      run_git ["status"] false envFail st0 =
        (Except.error "git exited with status 3",
         { trace := [["status"]], console := ["boom"] }) :=
  ⟨(run_git_gateway (constEnv (fun _ => " out ")) st0 ["status"] false).1
      (by decide),
   (run_git_gateway envFail st0 ["status"] false).2.1 (by decide)⟩

/-- C2: the single-branch reconcile issues exactly this git command
sequence, in this order, over any trace-independent environment whose
commands all succeed: record the tip commit (`log`), set the tracked
upstream (`branch --set-upstream-to`), check the working tree
(`status`), hard-reset to the upstream target, sync submodules
(`init`, `update`), cherry-pick the recorded commit, and sync
submodules again — the clean-tree check sits after the upstream has
been set and before the hard reset.  When the status report is not
clean, the run stops right after the `status` query (nothing is reset)
and fails with the tree's trimmed status text. -/
theorem fix_upstream_sequence (f : List String → String) (target : String)
    (verbose : Bool) (st : St) :
    (isCleanStatus (strTrim (f ["status"])) = true →
      (fix_upstream target verbose (constEnv f) st).1 = Except.ok () ∧
        (fix_upstream target verbose (constEnv f) st).2.trace =
          st.trace ++
            fix_upstream_cmds target
              (strTrim (f ["log", "-n", "1", "--pretty=format:%H"]))) ∧
    (isCleanStatus (strTrim (f ["status"])) = false →
      (fix_upstream target verbose (constEnv f) st).1 =
          Except.error (strTrim (f ["status"])) ∧
        (fix_upstream target verbose (constEnv f) st).2.trace =
          st.trace ++
            [["log", "-n", "1", "--pretty=format:%H"],
             ["branch", "--set-upstream-to", target],
             ["status"]]) := by
  constructor <;> intro h <;>
    simp [fix_upstream, lasthash, ensure_clean, handle_submodules,
      GitM_bind_apply, GitM_pure_apply, GitM.fail, run_git_constEnv,
      fix_upstream_cmds, h]

/-- Witness for `fix_upstream_sequence`: the clean run over an
environment answering a clean status, and the dirty run over one
answering a dirty status. -/
theorem fix_upstream_sequence_witness :
    ((fix_upstream "base" false (constEnv (fun args =>
          if args = ["status"] then "nothing to commit, working tree clean"
          else "h1")) st0).1 = Except.ok () ∧
      (fix_upstream "base" false (constEnv (fun args =>
          if args = ["status"] then "nothing to commit, working tree clean"
          else "h1")) st0).2.trace = fix_upstream_cmds "base" "h1") ∧
    ((fix_upstream "base" false (constEnv (fun _ => "dirty")) st0).1 =
        Except.error "dirty" ∧
      (fix_upstream "base" false (constEnv (fun _ => "dirty")) st0).2.trace =
        [["log", "-n", "1", "--pretty=format:%H"],
         ["branch", "--set-upstream-to", "base"],
         ["status"]]) :=
  ⟨(fix_upstream_sequence (fun args =>
        if args = ["status"] then "nothing to commit, working tree clean"
        else "h1") "base" false st0).1 (by decide),
   (fix_upstream_sequence (fun _ => "dirty") "base" false st0).2 (by decide)⟩

/-- The upstream chain followed by `branch_depth` terminates in `k`
steps: zero when the name is not a key or its node has no upstream,
and one more than the chain of the upstream name otherwise (a step to
a dangling upstream name counts, and terminates at the next level). -/
inductive ReachesRoot (m : List (String × BranchT)) : String → Nat → Prop where
  | notKey : ∀ n, alookup m n = none → ReachesRoot m n 0
  | noUp : ∀ n b, alookup m n = some b → b.desc.upstream = none →
      ReachesRoot m n 0
  | step : ∀ n b u k, alookup m n = some b → b.desc.upstream = some u →
      ReachesRoot m u k → ReachesRoot m n (k + 1)

/-- The single-node graph whose only branch `a` tracks the dangling
remote-style name `origin/main`. -/
def danglingDescs : List BranchDescriptor :=
  [{ current := false, name := "a", sha := "s",
     upstream := some "origin/main", message := "m", status := none }]

/-- C3, counterexample: in the graph with the single branch
`a -> origin/main`, the branch `a` is a root (its upstream is not a
key of the map), yet `branch_depth` returns 1, not 0 as the claim
states: the 0 case of the recursion tests whether the *named node* is
absent or upstream-less, not whether its upstream is. -/
theorem branch_depth_dangling_counterexample :
    isRootB (branches_by_name (build_branches danglingDescs))
        ((build_branches danglingDescs).headD
          { desc := { current := false, name := "", sha := "",
                      upstream := none, message := "", status := none },
            downstream := [] }) = true ∧
      branch_depth 3 (branches_by_name (build_branches danglingDescs)) "a" ≠
        0 := by
  constructor <;> decide

/-- C3, amended: `branch_depth` returns 0 when the named node is not a
key of the map or has no upstream, and `1 + branch_depth upstream`
otherwise — including when the upstream is dangling or remote-style,
so such a root has depth 1; consequently, for a node whose upstream
chain terminates in `k` steps (a final step onto a dangling name
included in the count), the depth equals `k`, for any fuel exceeding
`k`. -/
theorem branch_depth_amended :
    (∀ (m : List (String × BranchT)) (n : String),
      alookup m n = none → ∀ fuel, branch_depth fuel m n = 0) ∧
    (∀ (m : List (String × BranchT)) (n : String) (b : BranchT),
      alookup m n = some b → b.desc.upstream = none →
      ∀ fuel, branch_depth fuel m n = 0) ∧
    (∀ (m : List (String × BranchT)) (n : String) (b : BranchT)
      (u : String), alookup m n = some b → b.desc.upstream = some u →
      ∀ fuel, branch_depth (fuel + 1) m n = 1 + branch_depth fuel m u) ∧
    (∀ (m : List (String × BranchT)) (n : String) (k : Nat),
      ReachesRoot m n k → ∀ fuel, k < fuel →
      branch_depth fuel m n = (k : Int)) := by
  refine ⟨?_, ?_, ?_, ?_⟩
  · intro m n h fuel
    cases fuel <;> simp [branch_depth, h]
  · intro m n b h hu fuel
    cases fuel <;> simp [branch_depth, h, hu]
  · intro m n b u h hu fuel
    simp [branch_depth, h, hu]
  · intro m n k hr
    induction hr with
    | notKey n h =>
      intro fuel hf
      cases fuel <;> simp [branch_depth, h]
    | noUp n b h hu =>
      intro fuel hf
      cases fuel <;> simp [branch_depth, h, hu]
    | step n b u k h hu _ ih =>
      intro fuel hf
      cases fuel with
      | zero => omega
      | succ fuel =>
        have := ih fuel (by omega)
        simp [branch_depth, h, hu, this]
        omega

/-- Witness for `branch_depth_amended`: the chain of length 1 in the
dangling-upstream graph evaluates to depth 1. -/
theorem branch_depth_amended_witness :
    branch_depth 3 (branches_by_name (build_branches danglingDescs)) "a" =
      1 :=
  branch_depth_amended.2.2.2 _ "a" 1
    (ReachesRoot.step "a"
      { desc := { current := false, name := "a", sha := "s",
                  upstream := some "origin/main", message := "m",
                  status := none },
        downstream := [] }
      "origin/main" 0 (by decide) rfl
      (ReachesRoot.notKey "origin/main" (by decide)))
    3 (by omega)

/-- C6, counterexample: the line `" * a b c"` (whitespace before the
`*`) parses successfully with `current = false`, although after
trimming it begins with `*`: the flag is read from the first character
of the original, untrimmed line. -/
theorem current_flag_counterexample :
    (parse_branch_entry " * a b c").map (fun d => d.current) =
        Except.ok false ∧
      (trimChars (" * a b c").data).headD ' ' = '*' :=
  ⟨rfl, by decide⟩

/-- C6, amended: the `isCurrent` flag of a successfully parsed
descriptor is true exactly when the first character of the line as
given — before any trimming, with a space substituted for an empty
line — is `*`. -/
theorem current_flag_first_char (line : String) (d : BranchDescriptor)
    (h : parse_branch_entry line = Except.ok d) :
    d.current = true ↔ line.data.headD ' ' = '*' := by
  simp only [parse_branch_entry] at h
  split at h
  · injection h with h
    subst h
    simp
  · exact absurd h (by simp)

/-- Witness for `current_flag_first_char` at the line `"* a b c"`. -/
theorem current_flag_first_char_witness :
    parse_branch_entry "* a b c" = Except.ok
        { current := true, name := "a", sha := "b", upstream := none,
          message := "c", status := none } ∧
      ({ current := true, name := "a", sha := "b", upstream := none,
          message := "c", status := none } : BranchDescriptor).current =
        true :=
  ⟨rfl,
   (current_flag_first_char "* a b c"
      { current := true, name := "a", sha := "b", upstream := none,
        message := "c", status := none } rfl).mpr (by decide)⟩


/-! ## Token counting: supporting lemmas for the parse claims -/

theorem tokenCount_nil : tokenCount [] = 0 := rfl

theorem tokenCountAux_true_eq (s : List Char) :
    tokenCountAux true s =
      tokenCountAux false (s.dropWhile (fun c => !isWs c)) := by
  induction s with
  | nil => rfl
  | cons c t ih =>
    by_cases h : isWs c = true
    · simp [tokenCountAux, List.dropWhile_cons, h]
    · simp only [Bool.not_eq_true] at h
      simp [tokenCountAux, List.dropWhile_cons, h, ih]

theorem tokenCount_ws_cons (c : Char) (s : List Char) (h : isWs c = true) :
    tokenCount (c :: s) = tokenCount s := by
  simp [tokenCount, tokenCountAux, h]

theorem tokenCount_tok_cons (c : Char) (s : List Char)
    (h : isWs c = false) :
    tokenCount (c :: s) =
      1 + tokenCount (s.dropWhile (fun x => !isWs x)) := by
  simp [tokenCount, tokenCountAux, h, tokenCountAux_true_eq]

theorem tokenCount_dropWhile_ws (s : List Char) :
    tokenCount (s.dropWhile isWs) = tokenCount s := by
  induction s with
  | nil => rfl
  | cons c t ih =>
    by_cases h : isWs c = true
    · rw [List.dropWhile_cons, if_pos h, ih, tokenCount_ws_cons c t h]
    · rw [List.dropWhile_cons, if_neg (by simp [h])]

theorem tokenCount_all_ws (w : List Char) (h : ∀ c ∈ w, isWs c = true) :
    tokenCount w = 0 := by
  induction w with
  | nil => exact tokenCount_nil
  | cons c t ih =>
    rw [tokenCount_ws_cons c t (h c (by simp))]
    exact ih (fun x hx => h x (by simp [hx]))

/-- Appending an all-whitespace suffix does not change the token
count. -/
theorem tokenCount_append_ws (w : List Char) (h : ∀ c ∈ w, isWs c = true) :
    ∀ (n : Nat) (u : List Char), u.length ≤ n →
      tokenCount (u ++ w) = tokenCount u := by
  intro n
  induction n with
  | zero =>
    intro u hu
    have : u = [] := by
      cases u with
      | nil => rfl
      | cons a b => simp at hu
    subst this
    simpa using tokenCount_all_ws w h
  | succ n ih =>
    intro u hu
    match u with
    | [] => simpa using tokenCount_all_ws w h
    | c :: t =>
      by_cases hc : isWs c = true
      · rw [List.cons_append, tokenCount_ws_cons c _ hc,
          tokenCount_ws_cons c t hc]
        exact ih t (by simp only [List.length_cons] at hu; omega)
      · simp only [Bool.not_eq_true] at hc
        rw [List.cons_append, tokenCount_tok_cons c _ hc,
          tokenCount_tok_cons c t hc]
        rw [List.dropWhile_append]
        by_cases ht : (t.dropWhile (fun x => !isWs x)).isEmpty = true
        · simp only [ht, if_true]
          have hw : w.dropWhile (fun x => !isWs x) = w := by
            cases w with
            | nil => rfl
            | cons a b =>
              rw [List.dropWhile_cons, if_neg (by simp [h a (by simp)])]
          rw [hw, List.isEmpty_iff.mp ht, tokenCount_nil,
            tokenCount_all_ws w h]
        · simp only [ht, if_false, Bool.false_eq_true]
          congr 1
          refine ih _ ?_
          have h2 : (t.dropWhile (fun x => !isWs x)).length ≤ t.length :=
            (List.dropWhile_suffix _).sublist.length_le
          simp only [List.length_cons] at hu
          omega

/-- Dropping any prefix does not increase the token count. -/
theorem tokenCount_le_append (v : List Char) :
    ∀ (n : Nat) (u : List Char), u.length ≤ n →
      tokenCount v ≤ tokenCount (u ++ v) := by
  intro n
  induction n with
  | zero =>
    intro u hu
    have : u = [] := by
      cases u with
      | nil => rfl
      | cons a b => simp at hu
    subst this
    simp
  | succ n ih =>
    intro u hu
    match u with
    | [] => simp
    | c :: t =>
      by_cases hc : isWs c = true
      · rw [List.cons_append, tokenCount_ws_cons c _ hc]
        exact ih t (by simp only [List.length_cons] at hu; omega)
      · simp only [Bool.not_eq_true] at hc
        rw [List.cons_append, tokenCount_tok_cons c _ hc]
        rw [List.dropWhile_append]
        by_cases ht : (t.dropWhile (fun x => !isWs x)).isEmpty = true
        · simp only [ht, if_true]
          have hv : tokenCount v ≤
              1 + tokenCount (v.dropWhile (fun x => !isWs x)) := by
            match v with
            | [] => simp
            | d :: r =>
              by_cases hd : isWs d = true
              · rw [tokenCount_ws_cons d r hd,
                  List.dropWhile_cons, if_neg (by simp [hd]),
                  tokenCount_ws_cons d r hd]
                omega
              · simp only [Bool.not_eq_true] at hd
                rw [tokenCount_tok_cons d r hd, List.dropWhile_cons,
                  if_pos (by simp [hd])]
          exact hv
        · simp only [ht, if_false, Bool.false_eq_true]
          have h2 : (t.dropWhile (fun x => !isWs x)).length ≤ t.length :=
            (List.dropWhile_suffix _).sublist.length_le
          have := ih (t.dropWhile (fun x => !isWs x))
            (by simp only [List.length_cons] at hu; omega)
          omega

/-! ## Trimming lemmas -/

theorem dropWhile_head_false {p : Char → Bool} {l : List Char} {x : Char}
    {r : List Char} (h : l.dropWhile p = x :: r) : p x = false := by
  have := List.head?_dropWhile_not p l
  rw [h] at this
  simpa using this

theorem suffix_getLast? {w s : List Char} (h : w <:+ s) (hw : w ≠ []) :
    s.getLast? = w.getLast? := by
  obtain ⟨t, rfl⟩ := h
  exact List.getLast?_append_of_ne_nil t hw

theorem trimL_eq_self {l : List Char}
    (h : ∀ c, l.head? = some c → isWs c = false) : trimL l = l := by
  cases l with
  | nil => rfl
  | cons c t =>
    rw [trimL, List.dropWhile_cons, if_neg (by simp [h c rfl])]

theorem trimR_eq_self {l : List Char}
    (h : ∀ c, l.getLast? = some c → isWs c = false) : trimR l = l := by
  rw [trimR, trimL]
  cases hrev : l.reverse with
  | nil =>
    have : l = [] := by simpa using congrArg List.reverse hrev
    simp [this]
  | cons c t =>
    have hc : l.getLast? = some c := by
      rw [← List.head?_reverse, hrev]
      rfl
    rw [List.dropWhile_cons, if_neg (by simp [h c hc]), ← hrev,
      List.reverse_reverse]

/-- Every list is its right-trim followed by an all-whitespace tail. -/
theorem trimR_decomp (l : List Char) :
    ∃ w, (∀ c ∈ w, isWs c = true) ∧ l = trimR l ++ w := by
  refine ⟨(l.reverse.takeWhile isWs).reverse, ?_, ?_⟩
  · intro c hc
    rw [List.mem_reverse] at hc
    exact List.mem_takeWhile_imp hc
  · have h1 : List.takeWhile isWs l.reverse ++
        List.dropWhile isWs l.reverse = l.reverse :=
      List.takeWhile_append_dropWhile isWs l.reverse
    conv_lhs => rw [← List.reverse_reverse l, ← h1]
    rw [List.reverse_append, trimR, trimL]

theorem tokenCount_trimR (l : List Char) :
    tokenCount (trimR l) = tokenCount l := by
  obtain ⟨w, hw, hl⟩ := trimR_decomp l
  conv_rhs => rw [hl]
  rw [tokenCount_append_ws w hw (trimR l).length (trimR l) le_rfl]

theorem tokenCount_trimChars (l : List Char) :
    tokenCount (trimChars l) = tokenCount l := by
  rw [trimChars, tokenCount_trimR, trimL, tokenCount_dropWhile_ws]

theorem trimChars_head_not_ws (l : List Char) :
    ∀ c, (trimChars l).head? = some c → isWs c = false := by
  intro c hc
  rw [trimChars] at hc
  obtain ⟨w, _, hl⟩ := trimR_decomp (trimL l)
  have hne : trimR (trimL l) ≠ [] := by
    intro h0
    rw [h0] at hc
    simp at hc
  have : (trimL l).head? = some c := by
    rw [hl, List.head?_append, hc]
    rfl
  rw [trimL] at this
  rcases hd : (l.dropWhile isWs) with _ | ⟨x, r⟩
  · rw [hd] at this
    simp at this
  · rw [hd] at this
    simp at this
    subst this
    exact dropWhile_head_false hd

theorem trimChars_getLast_not_ws (l : List Char) :
    ∀ c, (trimChars l).getLast? = some c → isWs c = false := by
  intro c hc
  rw [trimChars, trimR, ← List.head?_reverse, List.reverse_reverse,
    trimL] at hc
  rcases hd : ((trimL l).reverse.dropWhile isWs) with _ | ⟨x, r⟩
  all_goals simp only [trimL] at hc hd
  · rw [hd] at hc
    simp at hc
  · rw [hd] at hc
    simp at hc
    subst hc
    exact dropWhile_head_false hd

/-- For a trimmed string, the limit-3 whitespace split yields three
parts exactly when the string has at least three whitespace-separated
tokens. -/
theorem splitn3_length_iff (s : List Char)
    (hL : ∀ c, s.head? = some c → isWs c = false)
    (hR : ∀ c, s.getLast? = some c → isWs c = false) :
    (splitn3 s).length = 3 ↔ 3 ≤ tokenCount s := by
  match s with
  | [] => simp [splitn3, breakWs, tokenCount_nil]
  | c :: t =>
    have hc : isWs c = false := hL c rfl
    rw [tokenCount_tok_cons c t hc]
    simp only [splitn3, breakWs, List.takeWhile_cons, List.dropWhile_cons,
      hc, Bool.not_false, if_true]
    rcases hr : t.dropWhile (fun x => !isWs x) with _ | ⟨d, r2⟩
    · simp [hr, tokenCount_nil]
    · have hd : isWs d = true := by
        have := dropWhile_head_false hr
        simpa using this
      have hsub1 : d :: r2 <:+ c :: t := by
        rw [← hr]
        exact (List.dropWhile_suffix _).trans (List.suffix_cons c t)
      simp only [hr, tokenCount_ws_cons d r2 hd]
      rw [← tokenCount_dropWhile_ws r2]
      rw [if_neg (List.cons_ne_nil d r2)]
      simp only [List.dropWhile_cons, hd, if_true]
      rcases hr1 : r2.dropWhile isWs with _ | ⟨e, r3⟩
      · simp [hr1, breakWs, tokenCount_nil]
      · have he : isWs e = false := dropWhile_head_false hr1
        have hsub2 : e :: r3 <:+ c :: t := by
          rw [← hr1]
          exact ((List.dropWhile_suffix _).trans
            (List.suffix_cons d r2)).trans hsub1
        rw [tokenCount_tok_cons e r3 he]
        simp only [breakWs, List.takeWhile_cons, List.dropWhile_cons, he,
          Bool.not_false, if_true]
        rcases hrest : r3.dropWhile (fun x => !isWs x) with _ | ⟨g, r4⟩
        · simp [hrest, tokenCount_nil]
        · have hsub3 : g :: r4 <:+ c :: t := by
            rw [← hrest]
            exact ((List.dropWhile_suffix _).trans
              (List.suffix_cons e r3)).trans hsub2
          have hne : (g :: r4).dropWhile isWs ≠ [] := by
            intro h0
            have hall : ∀ x ∈ g :: r4, isWs x = true :=
              List.dropWhile_eq_nil_iff.mp h0
            have hlast := suffix_getLast? hsub3 (by simp)
            have hmem : (g :: r4).getLast (by simp) ∈ g :: r4 :=
              List.getLast_mem _
            have : isWs ((g :: r4).getLast (by simp)) = false := by
              apply hR
              rw [hlast, List.getLast?_eq_getLast]
            rw [hall _ hmem] at this
            exact absurd this (by simp)
          rcases hg : (g :: r4).dropWhile isWs with _ | ⟨g2, r5⟩
          · exact absurd hg hne
          · have hg2 : isWs g2 = false := dropWhile_head_false hg
            rw [← tokenCount_dropWhile_ws (g :: r4), hg,
              tokenCount_tok_cons g2 r5 hg2]
            simp
            omega

/-! ## The listing-line contract (modelled from the spec)

`mkLine` produces lines of the input-contract shape
`[*] <name> <hash> [[<upstream>[: ahead N][, behind N]]] <message>`:
an optional current marker, the branch name, the commit hash, an
optional bracketed annotation holding the upstream and an optional
divergence status, and the message.  These definitions are modelled
from the specification text, not from the source: they generate the
lines the contract describes.
-/

/-- Decimal digit character. -/
def digitChar : Nat → Char
  | 0 => '0' | 1 => '1' | 2 => '2' | 3 => '3' | 4 => '4'
  | 5 => '5' | 6 => '6' | 7 => '7' | 8 => '8' | _ => '9'

/-- Decimal digits of a natural number. -/
def natDigits (n : Nat) : List Char :=
  if n < 10 then [digitChar n]
  else natDigits (n / 10) ++ [digitChar (n % 10)]
termination_by n
decreasing_by exact Nat.div_lt_self (by omega) (by omega)

/-- The status annotation text: `ahead N`, `behind N`, or
`ahead N, behind N`. -/
def statusText : Option Nat × Option Nat → List Char
  | (some a, some b) =>
    ['a', 'h', 'e', 'a', 'd', ' '] ++ natDigits a ++ [',', ' '] ++
      ['b', 'e', 'h', 'i', 'n', 'd', ' '] ++ natDigits b
  | (some a, none) => ['a', 'h', 'e', 'a', 'd', ' '] ++ natDigits a
  | (none, some b) => ['b', 'e', 'h', 'i', 'n', 'd', ' '] ++ natDigits b
  | (none, none) => []

/-- The bracketed annotation: absent, upstream only, or upstream with
a `": "`-separated status. -/
def annText : Option (List Char × Option (Option Nat × Option Nat)) →
    List Char
  | none => []
  | some (u, none) => '[' :: u ++ [']', ' ']
  | some (u, some st) => '[' :: (u ++ ':' :: ' ' :: statusText st) ++ [']', ' ']

/-- A listing line of the contract shape. -/
def mkLine (cur : Bool) (name hash : List Char)
    (ann : Option (List Char × Option (Option Nat × Option Nat)))
    (msg : List Char) : String :=
  String.mk ((if cur then ['*', ' '] else []) ++
    name ++ ' ' :: hash ++ ' ' :: annText ann ++ msg)

theorem digitChar_mem (d : Nat) :
    digitChar d ∈ ['0', '1', '2', '3', '4', '5', '6', '7', '8', '9'] := by
  rcases d with _|_|_|_|_|_|_|_|_|d <;> simp [digitChar]

theorem natDigits_mem (n : Nat) :
    ∀ c ∈ natDigits n,
      c ∈ ['0', '1', '2', '3', '4', '5', '6', '7', '8', '9'] := by
  induction n using Nat.strong_induction_on with
  | _ n ih =>
    intro c hc
    rw [natDigits] at hc
    by_cases h : n < 10
    · rw [if_pos h] at hc
      simp at hc
      subst hc
      exact digitChar_mem n
    · rw [if_neg h] at hc
      rcases List.mem_append.mp hc with h1 | h1
      · exact ih (n / 10) (Nat.div_lt_self (by omega) (by omega)) c h1
      · simp at h1
        subst h1
        exact digitChar_mem (n % 10)

/-- The characters that can occur in a status annotation. -/
def allowedStatusChars : List Char :=
  ['a', 'h', 'e', 'd', ' ', ',', 'b', 'i', 'n',
   '0', '1', '2', '3', '4', '5', '6', '7', '8', '9']

theorem natDigits_subset (n : Nat) : natDigits n ⊆ allowedStatusChars := by
  intro c hc
  have h := natDigits_mem n c hc
  simp only [List.mem_cons, List.not_mem_nil, or_false] at h
  rcases h with rfl|rfl|rfl|rfl|rfl|rfl|rfl|rfl|rfl|rfl <;> decide

theorem statusText_subset (st : Option Nat × Option Nat) :
    statusText st ⊆ allowedStatusChars := by
  rcases st with ⟨_ | a, _ | b⟩ <;> simp only [statusText]
  · exact fun c hc => absurd hc (List.not_mem_nil c)
  · refine List.append_subset.mpr ⟨by decide, natDigits_subset b⟩
  · refine List.append_subset.mpr ⟨by decide, natDigits_subset a⟩
  · refine List.append_subset.mpr ⟨?_, natDigits_subset b⟩
    refine List.append_subset.mpr ⟨?_, by decide⟩
    refine List.append_subset.mpr ⟨?_, by decide⟩
    exact List.append_subset.mpr ⟨by decide, natDigits_subset a⟩

/-- Status text never contains `]` or `:`. -/
theorem statusText_safe (st : Option Nat × Option Nat) :
    ∀ c ∈ statusText st, c ≠ ']' ∧ c ≠ ':' := by
  intro c hc
  have h := statusText_subset st hc
  constructor
  · intro h0
    subst h0
    exact absurd h (by decide)
  · intro h0
    subst h0
    exact absurd h (by decide)

/-! ## Helper computation lemmas for the parser proofs -/

theorem takeWhile_all_append (p : Char → Bool) (u : List Char)
    (x : Char) (v : List Char) (hu : ∀ c ∈ u, p c = true)
    (hx : p x = false) :
    (u ++ x :: v).takeWhile p = u ∧ (u ++ x :: v).dropWhile p = x :: v := by
  induction u with
  | nil => simp [List.takeWhile_cons, List.dropWhile_cons, hx]
  | cons c t ih =>
    have hc : p c = true := hu c (by simp)
    have := ih (fun d hd => hu d (by simp [hd]))
    simp [List.takeWhile_cons, List.dropWhile_cons, hc, this]

/-- Unfolding of `splitColonSpace` on a two-or-more element list. -/
theorem scs_cons_cons (c c2 : Char) (t : List Char) :
    splitColonSpace (c :: c2 :: t) =
      if c = ':' ∧ c2 = ' ' then [] :: splitColonSpace t
      else
        match splitColonSpace (c2 :: t) with
        | [] => [[c]]
        | h :: r => (c :: h) :: r := rfl

/-- `rest_captures` on a well-bracketed annotation followed by the
message. -/
theorem rest_captures_ann (content msg : List Char)
    (h : ∀ c ∈ content, c ≠ ']') :
    rest_captures ('[' :: content ++ ']' :: ' ' :: msg) =
      (some content, msg) := by
  have hall : ∀ c ∈ content, (fun x => decide (x ≠ ']')) c = true := by
    intro c hc
    simp [h c hc]
  obtain ⟨ht, hd⟩ := takeWhile_all_append (fun x => decide (x ≠ ']'))
    content ']' (' ' :: msg) hall (by simp)
  have step : rest_captures ('[' :: content ++ ']' :: ' ' :: msg) =
      (match (content ++ ']' :: ' ' :: msg).dropWhile
          (fun x => x ≠ ']') with
        | r1 :: r2 :: m =>
          if r1 = ']' ∧ r2 = ' ' then
            (some ((content ++ ']' :: ' ' :: msg).takeWhile
              (fun x => x ≠ ']')), m)
          else (none, '[' :: content ++ ']' :: ' ' :: msg)
        | _ => (none, '[' :: content ++ ']' :: ' ' :: msg)) := rfl
  rw [step, hd]
  simp only [ht]
  simp

/-- `splitColonSpace` of a separator-free string. -/
theorem scs_no_sep (u : List Char) (h : hasColonSpace u = false) :
    splitColonSpace u = [u] := by
  induction u with
  | nil => rfl
  | cons c t ih =>
    cases t with
    | nil => rfl
    | cons c2 t2 =>
      simp only [hasColonSpace, Bool.or_eq_false_iff,
        Bool.and_eq_false_iff] at h
      rw [scs_cons_cons, if_neg (by
        intro hp
        rcases h.1 with h1 | h1 <;> simp [hp.1, hp.2] at h1)]
      rw [ih h.2]

/-- `splitColonSpace` splits at the first `": "` separator. -/
theorem scs_append (u w : List Char) (h : hasColonSpace u = false) :
    splitColonSpace (u ++ ':' :: ' ' :: w) = u :: splitColonSpace w := by
  induction u with
  | nil => rw [List.nil_append, scs_cons_cons, if_pos ⟨rfl, rfl⟩]
  | cons c t ih =>
    cases t with
    | nil =>
      rw [List.cons_append, List.nil_append, scs_cons_cons,
        if_neg (by intro hp; exact absurd hp.2 (by decide))]
      rw [scs_cons_cons, if_pos ⟨rfl, rfl⟩]
    | cons c2 t2 =>
      simp only [hasColonSpace, Bool.or_eq_false_iff,
        Bool.and_eq_false_iff] at h
      rw [List.cons_append, List.cons_append, scs_cons_cons, if_neg (by
        intro hp
        rcases h.1 with h1 | h1 <;> simp [hp.1, hp.2] at h1)]
      rw [← List.cons_append, ih h.2]

/-- When the processed line does not split into exactly three fields,
`parse_branch_entry` fails with the wrong-number-of-parts error. -/
theorem parse_parts_error (line : String)
    (h : (splitn3 (trimChars ((trimChars line.data).dropWhile
        (fun c => c = '*')))).length ≠ 3) :
    parse_branch_entry line =
      Except.error (parse_error line "wrong number of parts") := by
  simp only [parse_branch_entry]
  split
  · rename_i p0 p1 p2 heq
    exact absurd (by rw [heq]; rfl) h
  · rfl

/-- When the processed line splits into exactly three fields,
`parse_branch_entry` succeeds. -/
theorem parse_parts_ok (line : String)
    (h : (splitn3 (trimChars ((trimChars line.data).dropWhile
        (fun c => c = '*')))).length = 3) :
    ∃ d, parse_branch_entry line = Except.ok d := by
  simp only [parse_branch_entry]
  split
  · exact ⟨_, rfl⟩
  · rename_i hne
    obtain ⟨a, b, c2, hs⟩ := List.length_eq_three.mp h
    exact absurd hs (hne a b c2)

/-- The processed form of a line has at most as many tokens as the
line itself. -/
theorem tokenCount_processed_le (line : String) :
    tokenCount (trimChars ((trimChars line.data).dropWhile
        (fun c => c = '*'))) ≤ tokenCount line.data := by
  rw [tokenCount_trimChars]
  have h1 : tokenCount ((trimChars line.data).dropWhile
      (fun c => c = '*')) ≤ tokenCount (trimChars line.data) := by
    conv_rhs => rw [← List.takeWhile_append_dropWhile
      (fun c => decide (c = '*')) (trimChars line.data)]
    exact tokenCount_le_append _
      ((trimChars line.data).takeWhile (fun c => decide (c = '*'))).length
      _ le_rfl
  rw [tokenCount_trimChars] at h1
  exact h1


/-- A three-field line splits into its three fields. -/
theorem splitn3_fields (name hash V2 : List Char)
    (hn0 : name ≠ []) (hnW : ∀ c ∈ name, isWs c = false)
    (hh0 : hash ≠ []) (hhW : ∀ c ∈ hash, isWs c = false)
    (hV : ∀ c, V2.head? = some c → isWs c = false) :
    splitn3 (name ++ ' ' :: (hash ++ ' ' :: V2)) = [name, hash, V2] := by
  obtain ⟨h0, ht, rfl⟩ : ∃ h0 ht, hash = h0 :: ht := by
    cases hash with
    | nil => exact absurd rfl hh0
    | cons a b => exact ⟨a, b, rfl⟩
  obtain ⟨t1, d1⟩ := takeWhile_all_append (fun c => !isWs c) name ' '
    (h0 :: ht ++ ' ' :: V2) (fun c hc => by simp [hnW c hc]) (by decide)
  obtain ⟨t2, d2⟩ := takeWhile_all_append (fun c => !isWs c) (h0 :: ht)
    ' ' V2 (fun c hc => by simp [hhW c hc]) (by decide)
  have eR1 : (' ' :: (h0 :: ht ++ ' ' :: V2)).dropWhile isWs =
      h0 :: ht ++ ' ' :: V2 := by
    rw [List.dropWhile_cons, if_pos (by decide), List.cons_append,
      List.dropWhile_cons, if_neg (by simp [hhW h0 (by simp)])]
  have eThird : (' ' :: V2).dropWhile isWs = V2 := by
    rw [List.dropWhile_cons, if_pos (by decide)]
    cases hv2 : V2 with
    | nil => rfl
    | cons v vs =>
      rw [List.dropWhile_cons, if_neg (by simp [hV v (by rw [hv2]; rfl)])]
  simp only [splitn3, breakWs]
  rw [d1, if_neg (List.cons_ne_nil _ _), eR1, d2,
    if_neg (List.cons_ne_nil _ _), eThird, t1, t2]


/-- A string without `:` contains no `": "` separator. -/
theorem hasColonSpace_eq_false_of (l : List Char)
    (h : ∀ c ∈ l, c ≠ ':') : hasColonSpace l = false := by
  induction l with
  | nil => rfl
  | cons a t ih =>
    cases t with
    | nil => rfl
    | cons b t2 =>
      simp only [hasColonSpace, Bool.or_eq_false_iff,
        Bool.and_eq_false_iff]
      exact ⟨Or.inl (by simp [h a (by simp)]),
        ih (fun c hc => h c (by simp [hc]))⟩

/-- Round trip of the listing-line contract through the parser. -/
theorem mkLine_parse (cur : Bool) (name hash msg : List Char)
    (ann : Option (List Char × Option (Option Nat × Option Nat)))
    (hname0 : name ≠ []) (hnameWs : ∀ c ∈ name, isWs c = false)
    (hnameStar : name.headD ' ' ≠ '*')
    (hhash0 : hash ≠ []) (hhashWs : ∀ c ∈ hash, isWs c = false)
    (hmsg0 : msg ≠ [])
    (hmsgLast : ∀ c, msg.getLast? = some c → isWs c = false)
    (hnoann : ann = none →
      (∀ c, msg.head? = some c → isWs c = false) ∧
        rest_captures msg = (none, msg))
    (hann : ∀ u st, ann = some (u, st) →
      (∀ c ∈ u, c ≠ ']') ∧ hasColonSpace u = false) :
    ∃ stv, parse_branch_entry (mkLine cur name hash ann msg) =
      Except.ok
        { current := cur, name := String.mk name, sha := String.mk hash,
          upstream := ann.map (fun a => String.mk a.1),
          message := String.mk msg, status := stv } := by
  obtain ⟨n0, nt, rfl⟩ : ∃ a b, name = a :: b := by
    cases name with
    | nil => exact absurd rfl hname0
    | cons a b => exact ⟨a, b, rfl⟩
  have hn0star : n0 ≠ '*' := by simpa using hnameStar
  have hn0ws : isWs n0 = false := hnameWs n0 (by simp)
  -- the canonical three-field form of the processed line
  have hV2head : ∀ c, (annText ann ++ msg).head? = some c →
      isWs c = false := by
    rcases ann with _ | ⟨u, st⟩
    · intro c hc
      exact (hnoann rfl).1 c (by simpa [annText] using hc)
    · intro c hc
      rcases st with _ | stv <;>
        simp [annText] at hc <;> subst hc <;> decide
  -- the last character of the canonical form is the last of the message
  have hlastS : ∀ c,
      ((n0 :: nt) ++ ' ' :: (hash ++ ' ' :: (annText ann ++ msg))).getLast? =
        some c → isWs c = false := by
    intro c hc
    have hassoc : (n0 :: nt) ++ ' ' :: (hash ++ ' ' :: (annText ann ++ msg)) =
        ((n0 :: nt) ++ ' ' :: (hash ++ ' ' :: annText ann)) ++ msg := by
      simp [List.append_assoc]
    rw [hassoc, List.getLast?_append_of_ne_nil _ hmsg0] at hc
    exact hmsgLast c hc
  have hheadS : ∀ c,
      ((n0 :: nt) ++ ' ' :: (hash ++ ' ' :: (annText ann ++ msg))).head? =
        some c → isWs c = false := by
    intro c hc
    rw [List.cons_append] at hc
    simp at hc
    subst hc
    exact hn0ws
  have htrimS : trimChars
      ((n0 :: nt) ++ ' ' :: (hash ++ ' ' :: (annText ann ++ msg))) =
      (n0 :: nt) ++ ' ' :: (hash ++ ' ' :: (annText ann ++ msg)) := by
    rw [trimChars, trimL_eq_self hheadS, trimR_eq_self hlastS]
  have hproc : trimChars (((trimChars
        (mkLine cur (n0 :: nt) hash ann msg).data)).dropWhile
        (fun c => c = '*')) =
      (n0 :: nt) ++ ' ' :: (hash ++ ' ' :: (annText ann ++ msg)) := by
    cases cur with
    | false =>
      have hdata : (mkLine false (n0 :: nt) hash ann msg).data =
          (n0 :: nt) ++ ' ' :: (hash ++ ' ' :: (annText ann ++ msg)) := by
        simp [mkLine, List.append_assoc]
      rw [hdata, htrimS, List.cons_append, List.dropWhile_cons,
        if_neg (by simp [hn0star]), ← List.cons_append, htrimS]
    | true =>
      have hdata : (mkLine true (n0 :: nt) hash ann msg).data =
          '*' :: ' ' ::
            ((n0 :: nt) ++ ' ' :: (hash ++ ' ' :: (annText ann ++ msg))) := by
        simp [mkLine, List.append_assoc]
      have htrimD : trimChars ((mkLine true (n0 :: nt) hash ann msg).data) =
          (mkLine true (n0 :: nt) hash ann msg).data := by
        rw [trimChars, trimL_eq_self, trimR_eq_self]
        · intro c hc
          rw [hdata] at hc
          have hassoc : '*' :: ' ' ::
              ((n0 :: nt) ++ ' ' :: (hash ++ ' ' :: (annText ann ++ msg))) =
              ('*' :: ' ' ::
                ((n0 :: nt) ++ ' ' :: (hash ++ ' ' :: annText ann))) ++ msg := by
            simp [List.append_assoc]
          rw [hassoc, List.getLast?_append_of_ne_nil _ hmsg0] at hc
          exact hmsgLast c hc
        · intro c hc
          rw [hdata] at hc
          simp at hc
          subst hc
          decide
      have eS : List.dropWhile isWs
          ((n0 :: nt) ++ ' ' :: (hash ++ ' ' :: (annText ann ++ msg))) =
          (n0 :: nt) ++ ' ' :: (hash ++ ' ' :: (annText ann ++ msg)) := by
        have e := trimL_eq_self hheadS
        rw [trimL] at e
        exact e
      rw [htrimD, hdata, List.dropWhile_cons, if_pos (by decide),
        List.dropWhile_cons, if_neg (by decide), trimChars,
        trimL, List.dropWhile_cons, if_pos (by decide), eS,
        trimR_eq_self hlastS]
  simp only [parse_branch_entry]
  rw [hproc, splitn3_fields (n0 :: nt) hash (annText ann ++ msg)
    (by simp) hnameWs hhash0 hhashWs hV2head]
  -- the match on the three fields now reduces
  rcases ann with _ | ⟨u, st⟩
  · refine ⟨none, ?_⟩
    have hrc := (hnoann rfl).2
    have hcur : (decide ((mkLine cur (n0 :: nt) hash none
        msg).data.head?.getD ' ' = '*')) = cur := by
      cases cur with
      | false =>
        simp only [mkLine]
        simp [hn0star]
      | true =>
        simp only [mkLine]
        simp
    simp [annText, hrc, hcur]
  · obtain ⟨hu1, hu2⟩ := hann u st rfl
    have hcur : (decide ((mkLine cur (n0 :: nt) hash (some (u, st))
        msg).data.head?.getD ' ' = '*')) = cur := by
      cases cur with
      | false =>
        simp only [mkLine]
        simp [hn0star]
      | true =>
        simp only [mkLine]
        simp
    rcases st with _ | stv
    · refine ⟨none, ?_⟩
      have hrc : rest_captures (annText (some (u, none)) ++ msg) =
          (some u, msg) := by
        have : annText (some (u, none)) ++ msg =
            '[' :: u ++ ']' :: ' ' :: msg := by
          simp [annText, List.append_assoc]
        rw [this]
        exact rest_captures_ann u msg hu1
      simp [hrc, scs_no_sep u hu2, hcur]
    · refine ⟨status_parse_groups (statusText stv), ?_⟩
      have hrc : rest_captures (annText (some (u, some stv)) ++ msg) =
          (some (u ++ ':' :: ' ' :: statusText stv), msg) := by
        have : annText (some (u, some stv)) ++ msg =
            '[' :: (u ++ ':' :: ' ' :: statusText stv) ++ ']' :: ' ' :: msg := by
          simp [annText, List.append_assoc]
        rw [this]
        refine rest_captures_ann _ msg ?_
        intro c hc
        rcases List.mem_append.mp hc with h1 | h1
        · exact hu1 c h1
        · rcases h1 with _ | ⟨_, h1⟩
          · decide
          rcases h1 with _ | ⟨_, h1⟩
          · decide
          · exact (statusText_safe stv c h1).1
      have hscs : splitColonSpace (u ++ ':' :: ' ' :: statusText stv) =
          u :: splitColonSpace (statusText stv) := scs_append u _ hu2
      have hst : hasColonSpace (statusText stv) = false :=
        hasColonSpace_eq_false_of _
          (fun c hc => (statusText_safe stv c hc).2)
      simp [hrc, hcur, hscs, scs_no_sep (statusText stv) hst, status_parse]

/-- C4: every line of the input-contract shape parses successfully and
round-trips the name, commit hash, optional upstream, and message
fields exactly (the contract requires: nonempty whitespace-free name
not starting with `*`, nonempty whitespace-free hash, a nonempty
message with no trailing whitespace that does not itself start like a
bracketed annotation when the annotation is absent, and an upstream
containing neither `]` nor the `": "` separator); and every line with
fewer than three whitespace-separated tokens yields the
wrong-number-of-parts `ParseFailure`. -/
theorem parse_round_trip_and_short_lines :
    (∀ (cur : Bool) (name hash msg : List Char)
      (ann : Option (List Char × Option (Option Nat × Option Nat))),
      name ≠ [] → (∀ c ∈ name, isWs c = false) →
      name.headD ' ' ≠ '*' →
      hash ≠ [] → (∀ c ∈ hash, isWs c = false) →
      msg ≠ [] →
      (∀ c, msg.getLast? = some c → isWs c = false) →
      (ann = none →
        (∀ c, msg.head? = some c → isWs c = false) ∧
          rest_captures msg = (none, msg)) →
      (∀ u st, ann = some (u, st) →
        (∀ c ∈ u, c ≠ ']') ∧ hasColonSpace u = false) →
      ∃ stv, parse_branch_entry (mkLine cur name hash ann msg) =
        Except.ok
          { current := cur, name := String.mk name,
            sha := String.mk hash,
            upstream := ann.map (fun a => String.mk a.1),
            message := String.mk msg, status := stv }) ∧
    (∀ line : String, tokenCount line.data < 3 →
      parse_branch_entry line =
        Except.error (parse_error line "wrong number of parts")) := by
  constructor
  · intro cur name hash msg ann h1 h2 h3 h4 h5 h6 h7 h8 h9
    exact mkLine_parse cur name hash msg ann h1 h2 h3 h4 h5 h6 h7 h8 h9
  · intro line h
    apply parse_parts_error
    intro h3
    have hle := tokenCount_processed_le line
    have hiff := splitn3_length_iff
      (trimChars ((trimChars line.data).dropWhile (fun c => c = '*')))
      (trimChars_head_not_ws _) (trimChars_getLast_not_ws _)
    have := hiff.mp h3
    omega

/-- Witness for `parse_round_trip_and_short_lines`: the line
`* feat-b abc123 [feat-a: ahead 2] add widget` round-trips its four
fields, and the two-token line `"a b"` fails. -/
theorem parse_round_trip_witness :
    (∃ stv, parse_branch_entry
        (mkLine true "feat-b".data "abc123".data
          (some ("feat-a".data, some (some 2, none))) "add widget".data) =
      Except.ok
        { current := true, name := "feat-b", sha := "abc123",
          upstream := some "feat-a", message := "add widget",
          status := stv }) ∧
    parse_branch_entry "a b" =
      Except.error (parse_error "a b" "wrong number of parts") :=
  ⟨parse_round_trip_and_short_lines.1 true "feat-b".data "abc123".data
      "add widget".data (some ("feat-a".data, some (some 2, none)))
      (by decide) (by decide) (by decide) (by decide) (by decide)
      (by decide) (by decide) (by intro h; exact absurd h (by decide))
      (by
        intro u st h
        injection h with h
        injection h with h1 h2
        subst h1
        exact ⟨by decide, by decide⟩),
   parse_round_trip_and_short_lines.2 "a b" (by decide)⟩

/-- C10: `parse_branch_entry` succeeds on every line whose trimmed,
star-stripped form has at least three whitespace-separated fields —
regardless of the content of the third field, since the annotation
regex and the status regex match every string — and the only
reachable failure is the wrong-number-of-parts one: the
`failed to capture` and `no message` error branches of the source are
dead, because the annotation regex `(?:\[([^\]]*)\] )?(.*)` matches
(possibly emptily) at position 0 of any string and its message group
always participates; the embedding reflects this by `rest_captures`
being total. -/
theorem parse_total_three_fields (line : String) :
    (3 ≤ tokenCount (trimChars ((trimChars line.data).dropWhile
        (fun c => c = '*'))) →
      ∃ d, parse_branch_entry line = Except.ok d) ∧
    ((∃ d, parse_branch_entry line = Except.ok d) ∨
      parse_branch_entry line =
        Except.error (parse_error line "wrong number of parts")) := by
  constructor
  · intro h
    apply parse_parts_ok
    exact (splitn3_length_iff
      (trimChars ((trimChars line.data).dropWhile (fun c => c = '*')))
      (trimChars_head_not_ws _) (trimChars_getLast_not_ws _)).mpr h
  · by_cases h : (splitn3 (trimChars ((trimChars line.data).dropWhile
        (fun c => c = '*')))).length = 3
    · exact Or.inl (parse_parts_ok line h)
    · exact Or.inr (parse_parts_error line h)

/-- Witness for `parse_total_three_fields`: a line whose third field
is a malformed annotation (unclosed bracket) still parses, the
annotation being absorbed into the message. -/
theorem parse_total_three_fields_witness :
    ∃ d, parse_branch_entry "x h [unclosed bracket" = Except.ok d :=
  (parse_total_three_fields "x h [unclosed bracket").1 (by decide)

/-! ## Graph-construction characterizations (for the build and render
claims) -/

/-- The downstream names of `p` determined directly by the
descriptors, in input order. -/
def childNames (descs : List BranchDescriptor) (p : String) :
    List String :=
  (descs.filter (fun d => d.upstream = some p)).map (fun d => d.name)

/-- The names of the sorted roots the tree printer starts from. -/
def root_names (descs : List BranchDescriptor) : List String :=
  (root_branches descs).map (fun b => b.desc.name)

/-- The downstream list of the node called `p`, as the renderer reads
it from the by-name map. -/
def downstream_names (descs : List BranchDescriptor) (p : String) :
    List String :=
  ((alookup (branches_by_name (build_branches descs)) p).map
    (fun b => b.downstream)).getD []

theorem alookup_insertAL {β : Type} (m : List (String × β)) (k : String)
    (v : β) (u : String) :
    alookup (insertAL m k v) u =
      if k = u then some v else alookup m u := by
  induction m with
  | nil => simp [insertAL, alookup]
  | cons e rest ih =>
    obtain ⟨k1, v1⟩ := e
    by_cases h : k1 = k
    · subst h
      by_cases h2 : k1 = u <;> simp [insertAL, alookup, h2]
    · by_cases h2 : k1 = u
      · subst h2
        simp [insertAL, alookup, h, ih, Ne.symm h]
      · simp [insertAL, alookup, h, ih, h2]

theorem alookup_addDownstream (m : List (String × List String))
    (k v u : String) :
    alookup (addDownstream m k v) u =
      if k = u then some ((alookup m u).getD [] ++ [v])
      else alookup m u := by
  induction m with
  | nil =>
    by_cases h : k = u <;> simp [addDownstream, alookup, h]
  | cons e rest ih =>
    obtain ⟨k1, v1⟩ := e
    by_cases h : k1 = k
    · subst h
      by_cases h2 : k1 = u <;> simp [addDownstream, alookup, h2]
    · by_cases h2 : k1 = u
      · subst h2
        simp [addDownstream, alookup, h, ih, Ne.symm h]
      · simp [addDownstream, alookup, h, ih, h2]

/-- `childNames` at the `BranchT` level. -/
def childNamesB (bs : List BranchT) (p : String) : List String :=
  (bs.filter (fun b => b.desc.upstream = some p)).map
    (fun b => b.desc.name)

theorem branches_by_name_isSome_aux (bs : List BranchT)
    (u : String) :
    ∀ m : List (String × BranchT),
      (alookup (bs.foldl (fun m b => insertAL m b.desc.name b) m)
          u).isSome = true ↔
        (∃ b ∈ bs, b.desc.name = u) ∨ (alookup m u).isSome = true := by
  induction bs with
  | nil => simp
  | cons b0 rest ih =>
    intro m
    rw [List.foldl_cons, ih]
    rw [alookup_insertAL]
    by_cases h : b0.desc.name = u
    · simp [h]
    · simp only [if_neg h]
      constructor
      · rintro (h1 | h1)
        · exact Or.inl ⟨_, by simp [h1.choose_spec.1], h1.choose_spec.2⟩
        · exact Or.inr h1
      · rintro (⟨b, hb, rfl⟩ | h1)
        · rcases List.mem_cons.mp hb with rfl | hb2
          · exact absurd rfl h
          · exact Or.inl ⟨b, hb2, rfl⟩
        · exact Or.inr h1

theorem containsKey_branches_by_name (bs : List BranchT) (u : String) :
    containsKey (branches_by_name bs) u = true ↔
      ∃ b ∈ bs, b.desc.name = u := by
  rw [containsKey, branches_by_name]
  rw [branches_by_name_isSome_aux bs u []]
  simp [alookup]

theorem branches_by_name_mem_aux (bs : List BranchT) (u : String)
    (b : BranchT) :
    ∀ m : List (String × BranchT),
      alookup (bs.foldl (fun m b => insertAL m b.desc.name b) m) u =
          some b →
        (b ∈ bs ∧ b.desc.name = u) ∨ alookup m u = some b := by
  induction bs with
  | nil => simp
  | cons b0 rest ih =>
    intro m h
    rw [List.foldl_cons] at h
    rcases ih _ h with h1 | h1
    · exact Or.inl ⟨List.mem_cons_of_mem b0 h1.1, h1.2⟩
    · rw [alookup_insertAL] at h1
      by_cases h2 : b0.desc.name = u
      · rw [if_pos h2] at h1
        injection h1 with h1
        subst h1
        exact Or.inl ⟨List.mem_cons_self _ _, h2⟩
      · rw [if_neg h2] at h1
        exact Or.inr h1

theorem alookup_branches_by_name_mem (bs : List BranchT) (u : String)
    (b : BranchT)
    (h : alookup (branches_by_name bs) u = some b) :
    b ∈ bs ∧ b.desc.name = u := by
  rcases branches_by_name_mem_aux bs u b [] h with h1 | h1
  · exact h1
  · exact absurd h1 (by simp [alookup])

theorem branch_downstream_map_aux (bs : List BranchT) (u : String) :
    ∀ m : List (String × List String),
      (alookup (bs.foldl (fun m b =>
          match b.desc.upstream with
          | some up => addDownstream m up b.desc.name
          | none => m) m) u).getD [] =
        (alookup m u).getD [] ++ childNamesB bs u := by
  induction bs with
  | nil => simp [childNamesB]
  | cons b0 rest ih =>
    intro m
    rw [List.foldl_cons, ih]
    rcases hup : b0.desc.upstream with _ | X
    · simp only [childNamesB, List.filter_cons, hup]
      simp [childNamesB]
    · simp only [alookup_addDownstream]
      by_cases h : X = u
      · subst h
        simp only [if_pos rfl, childNamesB, List.filter_cons, hup,
          decide_eq_true_eq]
        simp [childNamesB, List.append_assoc]
      · simp only [if_neg h, childNamesB, List.filter_cons, hup]
        have : (decide (some X = some u)) = false := by
          simp [h]
        rw [this]
        simp [childNamesB]

theorem alookup_branch_downstream_map (bs : List BranchT) (u : String) :
    (alookup (branch_downstream_map bs) u).getD [] = childNamesB bs u := by
  rw [branch_downstream_map, branch_downstream_map_aux bs u []]
  simp [alookup]

theorem childNamesB_mkBranches (descs : List BranchDescriptor)
    (p : String) :
    childNamesB (mkBranches descs) p = childNames descs p := by
  rw [childNamesB, childNames, mkBranches, List.filter_map,
    List.map_map]
  rfl

/-- The closed form of the graph pipeline: each descriptor becomes a
branch whose downstream list is exactly the names of the descriptors
tracking it, in input order. -/
theorem build_branches_eq (descs : List BranchDescriptor) :
    build_branches descs =
      descs.map (fun d =>
        { desc := d, downstream := childNames descs d.name }) := by
  rw [build_branches, set_downstreams, mkBranches, List.map_map]
  refine List.map_congr_left (fun d hd => ?_)
  show (match alookup (branch_downstream_map (mkBranches descs))
      d.name with
    | some ds => ({ desc := d, downstream := ds } : BranchT)
    | none => { desc := d, downstream := [] }) =
    { desc := d, downstream := childNames descs d.name }
  have h1 := alookup_branch_downstream_map (mkBranches descs) d.name
  rw [childNamesB_mkBranches] at h1
  rcases hl : alookup (branch_downstream_map (mkBranches descs)) d.name
    with _ | ds
  · rw [hl] at h1
    simp only [Option.getD] at h1
    simp [← h1]
  · rw [hl] at h1
    simp only [Option.getD] at h1
    simp [h1]

theorem containsKey_build (descs : List BranchDescriptor) (u : String) :
    containsKey (branches_by_name (build_branches descs)) u = true ↔
      ∃ d ∈ descs, d.name = u := by
  rw [containsKey_branches_by_name, build_branches_eq]
  constructor
  · rintro ⟨b, hb, rfl⟩
    obtain ⟨d, hd, rfl⟩ := List.mem_map.mp hb
    exact ⟨d, hd, rfl⟩
  · rintro ⟨d, hd, rfl⟩
    exact ⟨_, List.mem_map_of_mem _ hd, rfl⟩

/-- Membership characterization of the sorted root-name list. -/
theorem mem_root_names (descs : List BranchDescriptor) (x : String) :
    x ∈ root_names descs ↔
      ∃ d ∈ descs, d.name = x ∧
        (d.upstream = none ∨
          ∃ u, d.upstream = some u ∧ ¬ ∃ d2 ∈ descs, d2.name = u) := by
  rw [root_names, root_branches]
  constructor
  · intro hx
    obtain ⟨b, hb, rfl⟩ := List.mem_map.mp hx
    have hb2 := (List.mergeSort_perm _ _).mem_iff.mp hb
    obtain ⟨hmem, hroot⟩ := List.mem_filter.mp hb2
    rw [build_branches_eq] at hmem
    obtain ⟨d, hd, rfl⟩ := List.mem_map.mp hmem
    refine ⟨d, hd, rfl, ?_⟩
    rw [isRootB] at hroot
    rcases hup : d.upstream with _ | u
    · exact Or.inl rfl
    · refine Or.inr ⟨u, rfl, ?_⟩
      rw [← containsKey_build descs u]
      simp only [BranchT.has_upstream, hup, Bool.or_eq_true,
        Bool.not_eq_true', Option.isSome_some] at hroot
      rcases hroot with h1 | h1
      · exact absurd h1 (by simp)
      · simp [Option.getD, hup] at h1
        simp [h1]
  · rintro ⟨d, hd, rfl, hroot⟩
    refine List.mem_map.mpr
      ⟨⟨d, childNames descs d.name⟩, ?_, rfl⟩
    rw [(List.mergeSort_perm _ _).mem_iff]
    refine List.mem_filter.mpr ⟨?_, ?_⟩
    · rw [build_branches_eq]
      exact List.mem_map_of_mem _ hd
    · rw [isRootB]
      rcases hroot with h1 | ⟨u, hu, h1⟩
      · simp [BranchT.has_upstream, h1]
      · rw [← containsKey_build descs u] at h1
        simp only [Bool.not_eq_true] at h1
        simp [BranchT.has_upstream, hu, Option.getD,
          Bool.not_eq_true', h1]

/-- Membership characterization of a node's downstream list. -/
theorem mem_downstream_names (descs : List BranchDescriptor)
    (p x : String) :
    x ∈ downstream_names descs p ↔
      (∃ d ∈ descs, d.name = p) ∧
        ∃ d ∈ descs, d.upstream = some p ∧ d.name = x := by
  rw [downstream_names]
  rcases hl : alookup (branches_by_name (build_branches descs)) p
    with _ | b
  · show x ∈ ([] : List String) ↔ _
    simp only [List.not_mem_nil, false_iff]
    rintro ⟨⟨d, hd, rfl⟩, _⟩
    have : containsKey (branches_by_name (build_branches descs))
        d.name = true := (containsKey_build descs d.name).mpr ⟨d, hd, rfl⟩
    rw [containsKey, hl] at this
    exact absurd this (by simp)
  · show x ∈ b.downstream ↔ _
    obtain ⟨hmem, hname⟩ := alookup_branches_by_name_mem _ _ _ hl
    rw [build_branches_eq] at hmem
    obtain ⟨d, hd, rfl⟩ := List.mem_map.mp hmem
    simp only at hname
    subst hname
    show x ∈ childNames descs d.name ↔ _
    constructor
    · intro hx
      obtain ⟨d2, hd2, rfl⟩ := List.mem_map.mp hx
      obtain ⟨hd2m, hd2u⟩ := List.mem_filter.mp hd2
      exact ⟨⟨d, hd, rfl⟩, d2, hd2m, by simpa using hd2u, rfl⟩
    · rintro ⟨_, d2, hd2, hup, rfl⟩
      exact List.mem_map_of_mem _
        (List.mem_filter.mpr ⟨hd2, by simp [hup]⟩)

/-- C7: `build` is order-independent for the set of root names and
the set of each node's downstream names: for any permutation of the
descriptor sequence, the root-name list and each node's downstream
list have the same members (only their order may differ). -/
theorem build_order_independent (descs descs' : List BranchDescriptor)
    (h : descs.Perm descs') :
    (∀ x, x ∈ root_names descs ↔ x ∈ root_names descs') ∧
      (∀ p x, x ∈ downstream_names descs p ↔
        x ∈ downstream_names descs' p) := by
  constructor
  · intro x
    rw [mem_root_names, mem_root_names]
    constructor
    · rintro ⟨d, hd, h1, h2⟩
      refine ⟨d, h.mem_iff.mp hd, h1, ?_⟩
      rcases h2 with h2 | ⟨u, hu, h2⟩
      · exact Or.inl h2
      · exact Or.inr ⟨u, hu, fun ⟨d2, hd2, h3⟩ =>
          h2 ⟨d2, h.mem_iff.mpr hd2, h3⟩⟩
    · rintro ⟨d, hd, h1, h2⟩
      refine ⟨d, h.mem_iff.mpr hd, h1, ?_⟩
      rcases h2 with h2 | ⟨u, hu, h2⟩
      · exact Or.inl h2
      · exact Or.inr ⟨u, hu, fun ⟨d2, hd2, h3⟩ =>
          h2 ⟨d2, h.mem_iff.mp hd2, h3⟩⟩
  · intro p x
    rw [mem_downstream_names, mem_downstream_names]
    constructor
    · rintro ⟨⟨d, hd, h1⟩, d2, hd2, h2, h3⟩
      exact ⟨⟨d, h.mem_iff.mp hd, h1⟩, d2, h.mem_iff.mp hd2, h2, h3⟩
    · rintro ⟨⟨d, hd, h1⟩, d2, hd2, h2, h3⟩
      exact ⟨⟨d, h.mem_iff.mpr hd, h1⟩, d2, h.mem_iff.mpr hd2, h2, h3⟩

/-- Witness for `build_order_independent`: the spec example listing
and its reversal give the same root set and downstream sets. -/
theorem build_order_independent_witness :
    ("feat-a" ∈ root_names
        [{ current := false, name := "feat-a", sha := "a1",
           upstream := some "origin/main", message := "m1",
           status := none },
         { current := false, name := "feat-b", sha := "b1",
           upstream := some "feat-a", message := "m2",
           status := none }] ↔
      "feat-a" ∈ root_names
        [{ current := false, name := "feat-b", sha := "b1",
           upstream := some "feat-a", message := "m2", status := none },
         { current := false, name := "feat-a", sha := "a1",
           upstream := some "origin/main", message := "m1",
           status := none }]) ∧
      ("feat-b" ∈ downstream_names
        [{ current := false, name := "feat-a", sha := "a1",
           upstream := some "origin/main", message := "m1",
           status := none },
         { current := false, name := "feat-b", sha := "b1",
           upstream := some "feat-a", message := "m2",
           status := none }] "feat-a" ↔
      "feat-b" ∈ downstream_names
        [{ current := false, name := "feat-b", sha := "b1",
           upstream := some "feat-a", message := "m2", status := none },
         { current := false, name := "feat-a", sha := "a1",
           upstream := some "origin/main", message := "m1",
           status := none }] "feat-a") :=
  ⟨(build_order_independent _ _ (by
      refine List.Perm.swap _ _ [])).1 "feat-a",
   (build_order_independent _ _ (by
      refine List.Perm.swap _ _ [])).2 "feat-a" "feat-b"⟩


/-! ## Row counting for the tree renderer -/

/-- Whether a node gets a phantom upstream row: its upstream exists
and is remote-style (contains `origin`) or absent from the map. -/
def phantomFlag (byName : List (String × BranchT)) (b : BranchT) : Bool :=
  match b.desc.upstream with
  | some u => strContains u "origin" || !containsKey byName u
  | none => false

/-- The nodes visited by `format_tree_rooted_at`, with the same fuel
discipline. -/
def visitedT (byName : List (String × BranchT)) :
    Nat → BranchT → List BranchT
  | 0, _ => []
  | fuel + 1, b =>
    b :: (b.downstream.filterMap (alookup byName)).flatMap
      (visitedT byName fuel)

theorem sum_flatMap_nat {α : Type} (F : α → List Nat) (l : List α) :
    (l.flatMap F).sum = (l.map (fun x => (F x).sum)).sum := by
  induction l with
  | nil => rfl
  | cons a t ih => simp [List.flatMap_cons, List.sum_append, ih]

theorem phantom_rows_length (byName : List (String × BranchT))
    (pfx : String) (b : BranchT) :
    (phantom_rows byName pfx b).length =
      if phantomFlag byName b then 1 else 0 := by
  rw [phantom_rows, phantomFlag]
  rcases b.desc.upstream with _ | u
  · rfl
  · by_cases h1 : strContains u "origin" = true
    · simp [h1]
    · by_cases h2 : containsKey byName u = true <;>
        simp [h1, h2]

/-- Each visited node contributes one row plus its phantom row. -/
theorem format_tree_length (byName : List (String × BranchT)) :
    ∀ (fuel : Nat) (b : BranchT),
      (format_tree_rooted_at fuel byName b).length =
        ((visitedT byName fuel b).map
          (fun x => 1 + (if phantomFlag byName x then 1 else 0))).sum := by
  intro fuel
  induction fuel with
  | zero => intro b; rfl
  | succ fuel ih =>
    intro b
    rw [format_tree_rooted_at, visitedT]
    rw [List.length_append, List.length_append, List.length_flatMap,
      List.map_cons, List.sum_cons, phantom_rows_length]
    have h2 : List.map (List.length ∘ format_tree_rooted_at fuel byName)
        (b.downstream.filterMap (alookup byName)) =
        List.map (fun c => ((visitedT byName fuel c).map
          (fun x => 1 + (if phantomFlag byName x then 1 else 0))).sum)
        (b.downstream.filterMap (alookup byName)) :=
      List.map_congr_left (fun c _ => ih c)
    rw [h2, List.map_flatMap, sum_flatMap_nat]
    simp only [List.length_singleton]
    omega

/-- One step up the in-graph upstream chain: the upstream of the named
node when that upstream is itself a key of the map. -/
def parentStep (byName : List (String × BranchT)) (n : String) :
    Option String :=
  match alookup byName n with
  | some b =>
    match b.desc.upstream with
    | some u => if containsKey byName u then some u else none
    | none => none
  | none => none

/-- Iterated in-graph upstream steps. -/
def anc (byName : List (String × BranchT)) : Nat → String → Option String
  | 0, n => some n
  | k + 1, n => (anc byName k n).bind (parentStep byName)

theorem anc_succ_front (byName : List (String × BranchT)) (k : Nat)
    (n : String) :
    anc byName (k + 1) n = (parentStep byName n).bind (anc byName k) := by
  induction k generalizing n with
  | zero =>
    show (some n).bind (parentStep byName) =
      (parentStep byName n).bind (anc byName 0)
    cases hp : parentStep byName n <;> simp [hp, anc]
  | succ k ih =>
    show (anc byName (k + 1) n).bind (parentStep byName) =
      (parentStep byName n).bind (anc byName (k + 1))
    rw [ih n]
    cases hp : parentStep byName n with
    | none => rfl
    | some m => rfl

theorem anc_add (byName : List (String × BranchT)) (a b : Nat)
    (n : String) :
    anc byName (a + b) n = (anc byName a n).bind (anc byName b) := by
  induction b with
  | zero =>
    show anc byName a n = (anc byName a n).bind (anc byName 0)
    cases anc byName a n <;> rfl
  | succ b ih =>
    show (anc byName (a + b) n).bind (parentStep byName) =
      (anc byName a n).bind (anc byName (b + 1))
    rw [ih]
    cases anc byName a n with
    | none => rfl
    | some m => rfl

/-- A terminating depth chain of length `m` bounds every in-graph
ancestor index. -/
theorem anc_le_of_reaches (byName : List (String × BranchT)) :
    ∀ (n : String) (m : Nat), ReachesRoot byName n m →
      ∀ (j : Nat) (y : String), anc byName j n = some y → j ≤ m := by
  intro n m h
  induction h with
  | notKey n hn =>
    intro j y hj
    cases j with
    | zero => exact Nat.zero_le 0
    | succ j =>
      rw [anc_succ_front] at hj
      simp only [parentStep, hn] at hj
      exact absurd hj (by simp)
  | noUp n b hn hup =>
    intro j y hj
    cases j with
    | zero => exact Nat.zero_le 0
    | succ j =>
      rw [anc_succ_front] at hj
      simp only [parentStep, hn, hup] at hj
      exact absurd hj (by simp)
  | step n b u k hn hup hk ih =>
    intro j y hj
    cases j with
    | zero => exact Nat.zero_le _
    | succ j =>
      rw [anc_succ_front] at hj
      simp only [parentStep, hn, hup] at hj
      by_cases hkey : containsKey byName u = true
      · rw [if_pos hkey] at hj
        simp only [Option.some_bind] at hj
        exact Nat.succ_le_succ (ih j y hj)
      · rw [if_neg hkey] at hj
        exact absurd hj (by simp)

/-- No name with a terminating depth chain lies on an in-graph
ancestor cycle. -/
theorem anc_no_cycle (byName : List (String × BranchT)) (n : String)
    (m : Nat) (h : ReachesRoot byName n m) (j : Nat) (hj : 1 ≤ j) :
    anc byName j n ≠ some n := by
  intro hcyc
  have hiter : ∀ t : Nat, anc byName (t * j) n = some n := by
    intro t
    induction t with
    | zero => rw [Nat.zero_mul]; rfl
    | succ t ih =>
      rw [Nat.succ_mul, anc_add, ih]
      simpa using hcyc
  have hble := anc_le_of_reaches byName n m h ((m + 1) * j) n
    (hiter (m + 1))
  have : m + 1 ≤ (m + 1) * j := Nat.le_mul_of_pos_right (m + 1) hj
  omega

theorem count_flatMap_nat {α β : Type} [DecidableEq β] (x : β)
    (f : α → List β) (l : List α) :
    List.count x (l.flatMap f) =
      (l.map (fun c => List.count x (f c))).sum := by
  induction l with
  | nil => rfl
  | cons a t ih => simp [List.flatMap_cons, List.count_append, ih]

theorem sum_eq_one_of_single {α : Type} {l : List α} {a : α}
    (f : α → Nat) (hl : l.Nodup) (ha : a ∈ l) (hfa : f a = 1)
    (h0 : ∀ c ∈ l, c ≠ a → f c = 0) :
    (l.map f).sum = 1 := by
  induction l with
  | nil => exact absurd ha (List.not_mem_nil a)
  | cons b t ih =>
    rw [List.map_cons, List.sum_cons]
    rcases List.mem_cons.mp ha with rfl | hat
    · have ht0 : ∀ c ∈ t, f c = 0 := by
        intro c hc
        have hne : c ≠ a :=
          fun hca => (List.nodup_cons.mp hl).1 (hca ▸ hc)
        exact h0 c (List.mem_cons_of_mem a hc) hne
      have hzero : (t.map f).sum = 0 := by
        rw [List.sum_eq_zero]
        intro y hy
        obtain ⟨c, hct, rfl⟩ := List.mem_map.mp hy
        exact ht0 c hct
      omega
    · have hba : b ≠ a := by
        intro hba
        subst hba
        exact (List.nodup_cons.mp hl).1 hat
      rw [h0 b (List.mem_cons_self b t) hba]
      rw [ih (List.nodup_cons.mp hl).2 hat
        (fun c hc hca => h0 c (List.mem_cons_of_mem b hc) hca)]

theorem sum_eq_zero_of_all {α : Type} {l : List α} (f : α → Nat)
    (h0 : ∀ c ∈ l, f c = 0) : (l.map f).sum = 0 := by
  rw [List.sum_eq_zero]
  intro y hy
  obtain ⟨c, hct, rfl⟩ := List.mem_map.mp hy
  exact h0 c hct

/-- Shorthand for the by-name map of the built branch list. -/
def buildMap (descs : List BranchDescriptor) : List (String × BranchT) :=
  branches_by_name (build_branches descs)

theorem bs_names (descs : List BranchDescriptor) :
    (build_branches descs).map (fun b => b.desc.name) =
      descs.map (fun d => d.name) := by
  rw [build_branches_eq, List.map_map]
  rfl

theorem bs_nodup (descs : List BranchDescriptor)
    (hN : (descs.map (fun d => d.name)).Nodup) :
    (build_branches descs).Nodup := by
  refine List.Nodup.of_map (fun b => b.desc.name) ?_
  rw [bs_names]
  exact hN

theorem name_inj_build (descs : List BranchDescriptor)
    (hN : (descs.map (fun d => d.name)).Nodup) :
    ∀ x ∈ build_branches descs, ∀ y ∈ build_branches descs,
      x.desc.name = y.desc.name → x = y := by
  refine List.inj_on_of_nodup_map ?_
  rw [bs_names]
  exact hN

theorem lookup_self (descs : List BranchDescriptor)
    (hN : (descs.map (fun d => d.name)).Nodup)
    (x : BranchT) (hx : x ∈ build_branches descs) :
    alookup (buildMap descs) x.desc.name = some x := by
  have hkey : containsKey (buildMap descs) x.desc.name = true :=
    (containsKey_branches_by_name _ _).mpr ⟨x, hx, rfl⟩
  rw [containsKey] at hkey
  rcases hl : alookup (buildMap descs) x.desc.name with _ | c
  · rw [hl] at hkey
    exact absurd hkey (by simp)
  · rw [hl] at hkey
    obtain ⟨hc, hcn⟩ := alookup_branches_by_name_mem _ _ _ hl
    exact congrArg some (name_inj_build descs hN c hc x hx hcn)

theorem parentStep_key (m : List (String × BranchT)) (y z : String)
    (h : parentStep m y = some z) : containsKey m z = true := by
  rcases hl : alookup m y with _ | c
  · simp only [parentStep, hl] at h
    exact Option.noConfusion h
  · rcases hup : c.desc.upstream with _ | u
    · simp only [parentStep, hl, hup] at h
      exact Option.noConfusion h
    · by_cases hk : containsKey m u = true
      · simp only [parentStep, hl, hup, if_pos hk] at h
        injection h with h
        subst h
        exact hk
      · simp only [parentStep, hl, hup, if_neg hk] at h
        exact Option.noConfusion h

theorem parentStep_root (descs : List BranchDescriptor)
    (hN : (descs.map (fun d => d.name)).Nodup)
    (r : BranchT) (hr : r ∈ build_branches descs)
    (hroot : isRootB (buildMap descs) r = true) :
    parentStep (buildMap descs) r.desc.name = none := by
  have hl := lookup_self descs hN r hr
  rcases hup : r.desc.upstream with _ | u
  · simp [parentStep, hl, hup]
  · have hk : containsKey (buildMap descs) u = false := by
      rw [isRootB] at hroot
      simp only [BranchT.has_upstream, hup, Option.isSome_some,
        Bool.not_true, Bool.false_or, Option.getD] at hroot
      simpa using hroot
    simp [parentStep, hl, hup, hk]

/-- An entry of the child list the renderer recurses into is a built
branch whose upstream is the parent, and the in-graph parent step from
it lands back on the parent. -/
theorem child_mem (descs : List BranchDescriptor)
    (hN : (descs.map (fun d => d.name)).Nodup)
    (b c : BranchT) (hb : b ∈ build_branches descs)
    (hc : c ∈ b.downstream.filterMap (alookup (buildMap descs))) :
    c ∈ build_branches descs ∧ c.desc.upstream = some b.desc.name ∧
      parentStep (buildMap descs) c.desc.name = some b.desc.name := by
  obtain ⟨n, hn, hlook⟩ := List.mem_filterMap.mp hc
  obtain ⟨hcmem, hcname⟩ := alookup_branches_by_name_mem _ _ _ hlook
  have hb2 := hb
  rw [build_branches_eq] at hb2
  obtain ⟨d, hd, hbd⟩ := List.mem_map.mp hb2
  have hnc : n ∈ childNames descs d.name := by
    rw [← hbd] at hn
    exact hn
  obtain ⟨d2, hd2, rfl⟩ := List.mem_map.mp hnc
  obtain ⟨hd2m, hd2u⟩ := List.mem_filter.mp hd2
  have hel : ({ desc := d2, downstream := childNames descs d2.name } :
      BranchT) ∈ build_branches descs := by
    rw [build_branches_eq]
    exact List.mem_map_of_mem _ hd2m
  have hceq : c = { desc := d2, downstream := childNames descs d2.name } :=
    name_inj_build descs hN c hcmem _ hel hcname
  have hbdesc : b.desc = d := by rw [← hbd]
  have hup : c.desc.upstream = some b.desc.name := by
    rw [hceq, hbdesc]
    simpa using hd2u
  refine ⟨hcmem, hup, ?_⟩
  have hself := lookup_self descs hN c hcmem
  have hkey : containsKey (buildMap descs) b.desc.name = true :=
    (containsKey_branches_by_name _ _).mpr ⟨b, hb, rfl⟩
  simp [parentStep, hself, hup, hkey]

/-- Conversely, a built branch whose upstream is the parent name
appears in the parent's child list. -/
theorem child_of_parentStep (descs : List BranchDescriptor)
    (hN : (descs.map (fun d => d.name)).Nodup)
    (b c : BranchT) (hb : b ∈ build_branches descs)
    (hc : c ∈ build_branches descs)
    (hup : c.desc.upstream = some b.desc.name) :
    c ∈ b.downstream.filterMap (alookup (buildMap descs)) := by
  refine List.mem_filterMap.mpr
    ⟨c.desc.name, ?_, lookup_self descs hN c hc⟩
  have hb2 := hb
  rw [build_branches_eq] at hb2
  obtain ⟨d, hd, hbd⟩ := List.mem_map.mp hb2
  have hc2 := hc
  rw [build_branches_eq] at hc2
  obtain ⟨d2, hd2, hcd⟩ := List.mem_map.mp hc2
  have hbdesc : b.desc = d := by rw [← hbd]
  have hcdesc : c.desc = d2 := by rw [← hcd]
  have hd2u : d2.upstream = some d.name := by
    rw [← hcdesc, hup, hbdesc]
  rw [← hbd]
  show c.desc.name ∈ childNames descs d.name
  rw [hcdesc]
  exact List.mem_map_of_mem _ (List.mem_filter.mpr ⟨hd2, by simp [hd2u]⟩)

/-- With distinct branch names the child list of a node has no
duplicates. -/
theorem children_nodup (descs : List BranchDescriptor)
    (hN : (descs.map (fun d => d.name)).Nodup)
    (b : BranchT) (hb : b ∈ build_branches descs) :
    (b.downstream.filterMap (alookup (buildMap descs))).Nodup := by
  have hb2 := hb
  rw [build_branches_eq] at hb2
  obtain ⟨d, hd, hbd⟩ := List.mem_map.mp hb2
  have hds : b.downstream = childNames descs d.name := by rw [← hbd]
  have hnd : b.downstream.Nodup := by
    rw [hds, childNames]
    exact List.Nodup.sublist
      ((List.filter_sublist _).map (fun d : BranchDescriptor => d.name)) hN
  refine List.Nodup.filterMap ?_ hnd
  intro a a' y hy hy'
  exact ((alookup_branches_by_name_mem _ _ _ hy).2.symm).trans
    (alookup_branches_by_name_mem _ _ _ hy').2

/-- In-graph ancestors of a key are keys. -/
theorem anc_key (m : List (String × BranchT)) :
    ∀ (i : Nat) (x z : String), containsKey m x = true →
      anc m i x = some z → containsKey m z = true := by
  intro i
  induction i with
  | zero =>
    intro x z hx h
    have h' : some x = some z := h
    injection h' with h'
    subst h'
    exact hx
  | succ i ih =>
    intro x z hx h
    have h' : (anc m i x).bind (parentStep m) = some z := h
    rcases hy : anc m i x with _ | y
    · rw [hy] at h'
      exact Option.noConfusion h'
    · rw [hy, Option.some_bind] at h'
      exact parentStep_key m y z h'

/-- On a graph all of whose nodes have terminating depth chains, an
ancestor name determines its chain position. -/
theorem anc_cancel (descs : List BranchDescriptor)
    (hR : ∀ b ∈ build_branches descs,
      ∃ m, ReachesRoot (buildMap descs) b.desc.name m)
    (x : String) (hx : containsKey (buildMap descs) x = true)
    (i j : Nat) (z : String) (hij : i ≤ j)
    (h1 : anc (buildMap descs) i x = some z)
    (h2 : anc (buildMap descs) j x = some z) : i = j := by
  have hsum := anc_add (buildMap descs) i (j - i) x
  rw [Nat.add_sub_cancel' hij, h2, h1, Option.some_bind] at hsum
  by_cases hd : j - i = 0
  · omega
  · exfalso
    have hzkey : containsKey (buildMap descs) z = true :=
      anc_key (buildMap descs) i x z hx h1
    obtain ⟨b, hb, hbz⟩ := (containsKey_branches_by_name _ _).mp hzkey
    obtain ⟨m, hm⟩ := hR b hb
    rw [hbz] at hm
    exact anc_no_cycle (buildMap descs) z m hm (j - i)
      (by omega) hsum.symm

theorem anc_inj (descs : List BranchDescriptor)
    (hR : ∀ b ∈ build_branches descs,
      ∃ m, ReachesRoot (buildMap descs) b.desc.name m)
    (x : String) (hx : containsKey (buildMap descs) x = true)
    (i j : Nat) (z : String)
    (h1 : anc (buildMap descs) i x = some z)
    (h2 : anc (buildMap descs) j x = some z) : i = j := by
  rcases Nat.le_total i j with hij | hij
  · exact anc_cancel descs hR x hx i j z hij h1 h2
  · exact (anc_cancel descs hR x hx j i z hij h2 h1).symm

/-- A node whose name is not an in-graph ancestor of `x` within the
fuel bound contributes no copy of `x` to its visit list. -/
theorem count_visited_zero (descs : List BranchDescriptor)
    (hN : (descs.map (fun d => d.name)).Nodup) :
    ∀ (f : Nat) (b : BranchT), b ∈ build_branches descs →
      ∀ x : BranchT,
      (¬ ∃ k, k < f ∧
        anc (buildMap descs) k x.desc.name = some b.desc.name) →
      List.count x (visitedT (buildMap descs) f b) = 0 := by
  intro f
  induction f with
  | zero =>
    intro b hb x hno
    simp [visitedT]
  | succ f ih =>
    intro b hb x hno
    rw [visitedT]
    have hxb : x ≠ b := by
      intro he
      exact hno ⟨0, Nat.succ_pos f, by rw [he]; exact rfl⟩
    rw [List.count_cons_of_ne hxb, count_flatMap_nat]
    refine sum_eq_zero_of_all _ ?_
    intro c hc
    obtain ⟨hcmem, hcup, hcstep⟩ := child_mem descs hN b c hb hc
    refine ih c hcmem x ?_
    rintro ⟨k, hk, hkc⟩
    refine hno ⟨k + 1, Nat.succ_lt_succ hk, ?_⟩
    have hstep : anc (buildMap descs) (k + 1) x.desc.name =
        (anc (buildMap descs) k x.desc.name).bind
          (parentStep (buildMap descs)) := rfl
    rw [hstep, hkc, Option.some_bind, hcstep]

/-- A node whose name is an in-graph ancestor of `x` within the fuel
bound contributes exactly one copy of `x` to its visit list. -/
theorem count_visited_pos (descs : List BranchDescriptor)
    (hN : (descs.map (fun d => d.name)).Nodup)
    (hR : ∀ b ∈ build_branches descs,
      ∃ m, ReachesRoot (buildMap descs) b.desc.name m) :
    ∀ (f : Nat) (b : BranchT), b ∈ build_branches descs →
      ∀ x : BranchT, x ∈ build_branches descs →
      (∃ k, k < f ∧
        anc (buildMap descs) k x.desc.name = some b.desc.name) →
      List.count x (visitedT (buildMap descs) f b) = 1 := by
  intro f
  induction f with
  | zero =>
    rintro b hb x hx ⟨k, hk, _⟩
    omega
  | succ f ih =>
    rintro b hb x hx ⟨k, hk, hanc⟩
    rw [visitedT]
    rcases k with _ | j
    · have hxb : x = b := by
        have h' : some x.desc.name = some b.desc.name := hanc
        injection h' with h'
        exact name_inj_build descs hN x hx b hb h'
      subst hxb
      rw [List.count_cons_self, count_flatMap_nat]
      have hz : ((x.downstream.filterMap
          (alookup (buildMap descs))).map
          (fun c => List.count x
            (visitedT (buildMap descs) f c))).sum = 0 := by
        refine sum_eq_zero_of_all _ ?_
        intro c hc
        obtain ⟨hcmem, hcup, hcstep⟩ := child_mem descs hN x c hb hc
        refine count_visited_zero descs hN f c hcmem x ?_
        rintro ⟨k', hk', hkc⟩
        have hcyc : anc (buildMap descs) (k' + 1) x.desc.name =
            some x.desc.name := by
          have hstep : anc (buildMap descs) (k' + 1) x.desc.name =
              (anc (buildMap descs) k' x.desc.name).bind
                (parentStep (buildMap descs)) := rfl
          rw [hstep, hkc, Option.some_bind, hcstep]
        obtain ⟨m, hm⟩ := hR x hb
        exact anc_no_cycle (buildMap descs) x.desc.name m hm (k' + 1)
          (Nat.succ_le_succ (Nat.zero_le k')) hcyc
      rw [hz]
    · have hxb : x ≠ b := by
        intro he
        obtain ⟨m, hm⟩ := hR b hb
        rw [he] at hanc
        exact anc_no_cycle (buildMap descs) b.desc.name m hm (j + 1)
          (Nat.succ_le_succ (Nat.zero_le j)) hanc
      have h' : (anc (buildMap descs) j x.desc.name).bind
          (parentStep (buildMap descs)) = some b.desc.name := hanc
      rcases hy : anc (buildMap descs) j x.desc.name with _ | y
      · rw [hy] at h'
        exact absurd h' (by simp)
      · rw [hy, Option.some_bind] at h'
        rcases hl : alookup (buildMap descs) y with _ | cy
        · simp only [parentStep, hl] at h'
          exact Option.noConfusion h'
        · obtain ⟨hcymem, hcyname⟩ :=
            alookup_branches_by_name_mem _ _ _ hl
          rcases hup : cy.desc.upstream with _ | u
          · simp only [parentStep, hl, hup] at h'
            exact Option.noConfusion h'
          · by_cases hk2 : containsKey (buildMap descs) u = true
            · simp only [parentStep, hl, hup, if_pos hk2] at h'
              injection h' with h'
              subst h'
              have hcyup : cy.desc.upstream = some b.desc.name := hup
              have hcychild :
                  cy ∈ b.downstream.filterMap
                    (alookup (buildMap descs)) :=
                child_of_parentStep descs hN b cy hb hcymem hcyup
              rw [List.count_cons_of_ne hxb, count_flatMap_nat]
              refine sum_eq_one_of_single _
                (children_nodup descs hN b hb) hcychild ?_ ?_
              · refine ih cy hcymem x hx ⟨j, by omega, ?_⟩
                rw [hy, hcyname]
              · intro c hc hne
                obtain ⟨hcmem, hcup, hcstep⟩ :=
                  child_mem descs hN b c hb hc
                refine count_visited_zero descs hN f c hcmem x ?_
                rintro ⟨k', hk', hkc⟩
                have hstep2 : anc (buildMap descs) (k' + 1)
                    x.desc.name = some b.desc.name := by
                  have hstep : anc (buildMap descs) (k' + 1)
                      x.desc.name =
                      (anc (buildMap descs) k' x.desc.name).bind
                        (parentStep (buildMap descs)) := rfl
                  rw [hstep, hkc, Option.some_bind, hcstep]
                have hxkey : containsKey (buildMap descs)
                    x.desc.name = true :=
                  (containsKey_branches_by_name _ _).mpr ⟨x, hx, rfl⟩
                have heq := anc_inj descs hR x.desc.name hxkey
                  (k' + 1) (j + 1) b.desc.name hstep2 hanc
                have hkj : k' = j := by omega
                subst hkj
                rw [hy] at hkc
                injection hkc with hkc
                refine hne (name_inj_build descs hN c hcmem cy hcymem ?_)
                rw [← hkc, hcyname]
            · simp only [parentStep, hl, hup, if_neg hk2] at h'
              exact Option.noConfusion h'

/-- A key with a terminating depth chain has an in-graph ancestor that
is a root of the built graph, within the chain length. -/
theorem reach_root_exists (descs : List BranchDescriptor) :
    ∀ (n : String) (m : Nat),
      ReachesRoot (buildMap descs) n m →
      containsKey (buildMap descs) n = true →
      ∃ j ≤ m, ∃ rb, rb ∈ build_branches descs ∧
        isRootB (buildMap descs) rb = true ∧
        anc (buildMap descs) j n = some rb.desc.name := by
  intro n m h
  induction h with
  | notKey n hn =>
    intro hkey
    rw [containsKey, hn] at hkey
    exact absurd hkey (by simp)
  | noUp n b hn hup =>
    intro hkey
    obtain ⟨hbm, hbn⟩ := alookup_branches_by_name_mem _ _ _ hn
    refine ⟨0, Nat.zero_le 0, b, hbm, ?_, ?_⟩
    · rw [isRootB]
      simp [BranchT.has_upstream, hup]
    · rw [hbn]
      exact rfl
  | step n b u k hn hup hk ih =>
    intro hkey
    by_cases hu : containsKey (buildMap descs) u = true
    · obtain ⟨j, hj, rb, hrbm, hrbroot, hrbanc⟩ := ih hu
      refine ⟨j + 1, Nat.succ_le_succ hj, rb, hrbm, hrbroot, ?_⟩
      rw [anc_succ_front]
      have hp : parentStep (buildMap descs) n = some u := by
        simp [parentStep, hn, hup, hu]
      rw [hp, Option.some_bind, hrbanc]
    · obtain ⟨hbm, hbn⟩ := alookup_branches_by_name_mem _ _ _ hn
      have hu' : containsKey (buildMap descs) u = false :=
        Bool.eq_false_iff.mpr hu
      refine ⟨0, Nat.zero_le _, b, hbm, ?_, ?_⟩
      · rw [isRootB]
        simp [BranchT.has_upstream, hup, Option.getD, hu']
      · rw [hbn]
        exact rfl

/-- Every node the renderer visits is a built branch. -/
theorem mem_visitedT (descs : List BranchDescriptor) :
    ∀ (f : Nat) (b : BranchT), b ∈ build_branches descs →
      ∀ y ∈ visitedT (buildMap descs) f b,
        y ∈ build_branches descs := by
  intro f
  induction f with
  | zero =>
    intro b hb y hy
    exact absurd hy (List.not_mem_nil y)
  | succ f ih =>
    intro b hb y hy
    rw [visitedT] at hy
    rcases List.mem_cons.mp hy with rfl | hy2
    · exact hb
    · obtain ⟨c, hc, hyc⟩ := List.mem_flatMap.mp hy2
      obtain ⟨n2, hn2, hlook⟩ := List.mem_filterMap.mp hc
      exact ih c (alookup_branches_by_name_mem _ _ _ hlook).1 y hyc

theorem sum_one_indicator {α : Type} (p : α → Bool) (l : List α) :
    (l.map (fun x => 1 + (if p x then 1 else 0))).sum =
      l.length + (l.filter p).length := by
  induction l with
  | nil => rfl
  | cons a t ih =>
    rw [List.map_cons, List.sum_cons, ih, List.length_cons,
      List.filter_cons]
    by_cases h : p a = true
    · rw [if_pos h, if_pos h, List.length_cons]
      omega
    · rw [if_neg h, if_neg h]
      omega

theorem roots_nodup (descs : List BranchDescriptor)
    (hN : (descs.map (fun d => d.name)).Nodup) :
    (root_branches descs).Nodup := by
  rw [root_branches]
  exact ((List.mergeSort_perm _ _).nodup_iff).mpr
    ((bs_nodup descs hN).filter _)

theorem mem_root_branches (descs : List BranchDescriptor) (b : BranchT) :
    b ∈ root_branches descs ↔
      b ∈ build_branches descs ∧
        isRootB (buildMap descs) b = true := by
  rw [root_branches, (List.mergeSort_perm _ _).mem_iff, List.mem_filter]
  exact Iff.rfl

/-- With distinct names and terminating depth chains within the fuel
bound, the nodes visited from all roots together are exactly the built
branches, each once. -/
theorem visited_perm (descs : List BranchDescriptor) (fuel : Nat)
    (hN : (descs.map (fun d => d.name)).Nodup)
    (hR : ∀ b ∈ build_branches descs,
      ∃ m, m < fuel ∧ ReachesRoot (buildMap descs) b.desc.name m) :
    ((root_branches descs).flatMap
        (visitedT (buildMap descs) fuel)).Perm
      (build_branches descs) := by
  have hR' : ∀ b ∈ build_branches descs,
      ∃ m, ReachesRoot (buildMap descs) b.desc.name m :=
    fun b hb => ⟨(hR b hb).choose, (hR b hb).choose_spec.2⟩
  rw [List.perm_iff_count]
  intro x
  rw [count_flatMap_nat]
  by_cases hx : x ∈ build_branches descs
  · rw [List.count_eq_one_of_mem (bs_nodup descs hN) hx]
    obtain ⟨m, hm, hreach⟩ := hR x hx
    have hxkey : containsKey (buildMap descs) x.desc.name = true :=
      (containsKey_branches_by_name _ _).mpr ⟨x, hx, rfl⟩
    obtain ⟨j, hj, rb, hrbm, hrbroot, hrbanc⟩ :=
      reach_root_exists descs x.desc.name m hreach hxkey
    have hrbroots : rb ∈ root_branches descs :=
      (mem_root_branches descs rb).mpr ⟨hrbm, hrbroot⟩
    refine sum_eq_one_of_single _ (roots_nodup descs hN) hrbroots ?_ ?_
    · exact count_visited_pos descs hN hR' fuel rb hrbm x hx
        ⟨j, by omega, hrbanc⟩
    · intro r hr hne
      obtain ⟨hrm, hrroot⟩ := (mem_root_branches descs r).mp hr
      refine count_visited_zero descs hN fuel r hrm x ?_
      rintro ⟨k, hk, hkanc⟩
      refine hne ?_
      rcases Nat.le_total k j with hkj | hkj
      · have hsum := anc_add (buildMap descs) k (j - k) x.desc.name
        rw [Nat.add_sub_cancel' hkj, hrbanc, hkanc,
          Option.some_bind] at hsum
        rcases hd : j - k with _ | d
        · rw [hd] at hsum
          have hsum' : some rb.desc.name = some r.desc.name := hsum
          injection hsum' with hsum'
          exact name_inj_build descs hN r hrm rb hrbm hsum'.symm
        · exfalso
          rw [hd] at hsum
          have hps := parentStep_root descs hN r hrm hrroot
          have hnone : anc (buildMap descs) (d + 1) r.desc.name =
              none := by
            rw [anc_succ_front, hps]
            rfl
          rw [hnone] at hsum
          exact Option.noConfusion hsum
      · have hsum := anc_add (buildMap descs) j (k - j) x.desc.name
        rw [Nat.add_sub_cancel' hkj, hkanc, hrbanc,
          Option.some_bind] at hsum
        rcases hd : k - j with _ | d
        · rw [hd] at hsum
          have hsum' : some r.desc.name = some rb.desc.name := hsum
          injection hsum' with hsum'
          exact name_inj_build descs hN r hrm rb hrbm hsum'
        · exfalso
          rw [hd] at hsum
          have hps := parentStep_root descs hN rb hrbm hrbroot
          have hnone : anc (buildMap descs) (d + 1) rb.desc.name =
              none := by
            rw [anc_succ_front, hps]
            rfl
          rw [hnone] at hsum
          exact Option.noConfusion hsum
  · rw [List.count_eq_zero_of_not_mem hx]
    refine sum_eq_zero_of_all _ ?_
    intro r hr
    obtain ⟨hrm, _⟩ := (mem_root_branches descs r).mp hr
    refine List.count_eq_zero_of_not_mem ?_
    intro hmem
    exact hx (mem_visitedT descs fuel r hrm x hmem)

/-- C5 (amended): over any descriptor list with pairwise-distinct
branch names whose every node has a terminating upstream chain shorter
than the fuel, the rendered tree has exactly one node row per branch
plus exactly one phantom row per branch whose upstream is remote-style
(contains `origin`) or absent from the map; the no-duplicate-row half
of the claim is refuted separately. -/
theorem render_row_count (descs : List BranchDescriptor) (fuel : Nat)
    (hN : (descs.map (fun d => d.name)).Nodup)
    (hR : ∀ b ∈ build_branches descs,
      ∃ m, m < fuel ∧ ReachesRoot (buildMap descs) b.desc.name m) :
    (tree_rows fuel descs).length =
      (build_branches descs).length +
        ((build_branches descs).filter
          (phantomFlag (buildMap descs))).length := by
  have ht : tree_rows fuel descs =
      (root_branches descs).flatMap
        (format_tree_rooted_at fuel (buildMap descs)) := rfl
  rw [ht, List.length_flatMap]
  have h1 : List.map (List.length ∘
        format_tree_rooted_at fuel (buildMap descs))
      (root_branches descs) =
      List.map (fun r => ((visitedT (buildMap descs) fuel r).map
        (fun x => 1 +
          (if phantomFlag (buildMap descs) x then 1 else 0))).sum)
      (root_branches descs) :=
    List.map_congr_left
      (fun r _ => format_tree_length (buildMap descs) fuel r)
  rw [h1, ← sum_flatMap_nat, ← List.map_flatMap]
  rw [List.Perm.sum_eq ((visited_perm descs fuel hN hR).map _)]
  exact sum_one_indicator _ _

/-- Two branches tracking the same remote-style upstream name. -/
def ceDescs : List BranchDescriptor :=
  [{ current := false, name := "a", sha := "s1",
     upstream := some "origin/x", message := "m1", status := none },
   { current := false, name := "b", sha := "s2",
     upstream := some "origin/x", message := "m2", status := none }]

/-- C5 (counterexample): rows can repeat.  In the graph with two
branches `a` and `b` (distinct names) both tracking the remote-style
name `origin/x`, each root prints its own phantom row for `origin/x`,
and the two phantom rows are identical cell lists, so the rendered
table contains a duplicate row. -/
theorem render_duplicate_phantom_rows :
    (ceDescs.map (fun d => d.name)).Nodup ∧
      ¬ (tree_rows 5 ceDescs).Nodup := by
  constructor
  · decide
  · intro h
    have hperm : (tree_rows 5 ceDescs).Perm
        (((build_branches ceDescs).filter
            (isRootB (buildMap ceDescs))).flatMap
          (format_tree_rooted_at 5 (buildMap ceDescs))) := by
      have ht : tree_rows 5 ceDescs =
          (root_branches ceDescs).flatMap
            (format_tree_rooted_at 5 (buildMap ceDescs)) := rfl
      rw [ht, root_branches]
      exact (List.mergeSort_perm _ _).flatMap_right _
    exact absurd (hperm.nodup_iff.mp h) (by decide)

/-- The three-branch graph `a -> m`, `b -> origin/x` used to witness
the row-count theorem. -/
def wDescs : List BranchDescriptor :=
  [{ current := false, name := "m", sha := "s0",
     upstream := none, message := "t0", status := none },
   { current := true, name := "a", sha := "s1",
     upstream := some "m", message := "t1", status := none },
   { current := false, name := "b", sha := "s2",
     upstream := some "origin/x", message := "t2", status := none }]

/-- Witness for `render_row_count`: three branches, one of which has a
dangling remote-style upstream, render to 3 + 1 rows. -/
theorem render_row_count_witness :
    (tree_rows 5 wDescs).length =
      (build_branches wDescs).length +
        ((build_branches wDescs).filter
          (phantomFlag (buildMap wDescs))).length := by
  refine render_row_count wDescs 5 (by decide) ?_
  intro b hb
  have hbs : build_branches wDescs =
      [{ desc := { current := false, name := "m", sha := "s0",
                   upstream := none, message := "t0", status := none },
         downstream := ["a"] },
       { desc := { current := true, name := "a", sha := "s1",
                   upstream := some "m", message := "t1",
                   status := none },
         downstream := [] },
       { desc := { current := false, name := "b", sha := "s2",
                   upstream := some "origin/x", message := "t2",
                   status := none },
         downstream := [] }] := by decide
  rw [hbs] at hb
  simp only [List.mem_cons, List.not_mem_nil, or_false] at hb
  rcases hb with rfl | rfl | rfl
  · exact ⟨0, by omega,
      ReachesRoot.noUp "m"
        { desc := { current := false, name := "m", sha := "s0",
                    upstream := none, message := "t0", status := none },
          downstream := ["a"] } (by decide) rfl⟩
  · exact ⟨1, by omega,
      ReachesRoot.step "a"
        { desc := { current := true, name := "a", sha := "s1",
                    upstream := some "m", message := "t1",
                    status := none },
          downstream := [] } "m" 0 (by decide) rfl
        (ReachesRoot.noUp "m"
          { desc := { current := false, name := "m", sha := "s0",
                      upstream := none, message := "t0",
                      status := none },
            downstream := ["a"] } (by decide) rfl)⟩
  · exact ⟨1, by omega,
      ReachesRoot.step "b"
        { desc := { current := false, name := "b", sha := "s2",
                    upstream := some "origin/x", message := "t2",
                    status := none },
          downstream := [] } "origin/x" 0 (by decide) rfl
        (ReachesRoot.notKey "origin/x" (by decide))⟩
